import Mathlib

/-!
Verification development for the dicom_download repository.

The Lean definitions below are shallow embeddings of the Python functions of
the repository (src/src/client/unified.py, src/src/core/convert.py,
src/MR_clean.py).  Machine floats that the code only ever compares or adds are
modelled as rationals; a Python float NaN (produced by safe_to_numeric on bad
input) is modelled as the value none of Option Rat, and every comparison
involving none is false, exactly as every comparison involving NaN is false.
Strings are modelled as Lean strings; the regex patterns used by the code are
all alternations of literal substrings, so regex containment is modelled as
substring containment.
-/

/-- Boolean substring test on character lists: pat occurs contiguously inside
l. -/
def listContainsSub (l pat : List Char) : Bool :=
  if pat.isPrefixOf l then true
  else
    match l with
    | [] => false
    | _ :: rest => listContainsSub rest pat

/-- Boolean substring test: pat occurs somewhere inside s.  Models the Python
expression pat in s, and Series.str.contains for the literal-alternation
patterns used by this repository. -/
def strContains (s pat : String) : Bool :=
  listContainsSub s.data pat.data

/-- Any of the literal tokens occurs in s.  Models regex alternation
containment of literal tokens. -/
def strContainsAny (s : String) (pats : List String) : Bool :=
  pats.any (fun p => strContains s p)

/-- Models Python float comparison a > b where either side may be NaN
(none): any comparison with NaN is false. -/
def oGt (a b : Option ℚ) : Bool :=
  match a, b with
  | some x, some y => x > y
  | _, _ => false

/-- Models a >= b on possibly-NaN floats. -/
def oGe (a b : Option ℚ) : Bool :=
  match a, b with
  | some x, some y => x ≥ y
  | _, _ => false

/-- Models a < b on possibly-NaN floats. -/
def oLt (a b : Option ℚ) : Bool :=
  match a, b with
  | some x, some y => x < y
  | _, _ => false

/-- Models a <= b on possibly-NaN floats. -/
def oLe (a b : Option ℚ) : Bool :=
  match a, b with
  | some x, some y => x ≤ y
  | _, _ => false

/-- Python str.lower on the ASCII strings handled here. -/
def strLower (s : String) : String :=
  String.mk (s.data.map Char.toLower)

/-- Python str.upper on the ASCII strings handled here. -/
def strUpper (s : String) : String :=
  String.mk (s.data.map Char.toUpper)

/-- Python str.startswith. -/
def strStartsWith (s pre : String) : Bool :=
  pre.data.isPrefixOf s.data

/-- Fuel-driven worker for splitting at every non-overlapping occurrence of
sep; the fuel is an upper bound on the input length, so the final fuel
equation is never reached. -/
def splitOnLF (sep : List Char) : Nat → List Char → List (List Char)
  | _, [] => [[]]
  | 0, l => [l]
  | fuel + 1, c :: rest =>
      if sep ≠ [] ∧ sep.isPrefixOf (c :: rest) then
        [] :: splitOnLF sep fuel ((c :: rest).drop sep.length)
      else
        match splitOnLF sep fuel rest with
        | [] => [[c]]
        | p :: ps => (c :: p) :: ps

/-- Python str.split with a non-empty separator. -/
def strSplitOn (s sep : String) : List String :=
  (splitOnLF sep.data s.data.length s.data).map String.mk

/-- The join of the fingerprint columns with underscores. -/
def joinUnderscore (parts : List String) : String :=
  String.mk (((parts.map String.data).intersperse ['_']).flatten)

/-- numpy absolute value on an exact rational. -/
def qAbs (q : ℚ) : ℚ := if q < 0 then -q else q

/-- numpy maximum of two exact rationals. -/
def qMax (a b : ℚ) : ℚ := if a ≤ b then b else a

/-!
## Folder-name sanitisation

Embedding of DICOMDownloadClient._sanitize_folder_name
(src/src/client/unified.py lines 630-658).  The function body is a pipeline of
regex substitutions over the characters of the name; it is modelled on the
character list of the string.  The Python regexes involved match literal
character classes and runs, so each substitution is a simple scan.
-/

/-- The character class of the first substitution,
re.sub with pattern [<>"/\\|?*] (note: the colon is not in the class). -/
def winBadChar (c : Char) : Bool :=
  c = '<' || c = '>' || c = '"' || c = '/' || c = '\\' || c = '|' || c = '?' || c = '*'

/-- Python regex whitespace for ASCII input: space, tab, newline, carriage
return, vertical tab, form feed. -/
def pySpace (c : Char) : Bool :=
  c = ' ' || c = '\t' || c = '\n' || c = '\r' || c = '\x0b' || c = '\x0c'

/-- Replace every character of the class by an underscore: the substitution
on line 638 of unified.py. -/
def replaceBad (l : List Char) : List Char :=
  l.map (fun c => if winBadChar c then '_' else c)

/-- State machine for re.sub of a dot followed by a whitespace run, replaced
by one underscore (line 642).  The state is: 0 = normal scanning, 1 = a dot
has been read and its successor not yet seen, 2 = inside the whitespace run
of a match.  At the end of input a pending dot is emitted. -/
def subDotWsAux : Nat → List Char → List Char
  | 0, [] => []
  | 0, c :: rest => if c = '.' then subDotWsAux 1 rest else c :: subDotWsAux 0 rest
  | 1, [] => ['.']
  | 1, c :: rest =>
      if pySpace c then '_' :: subDotWsAux 2 rest
      else if c = '.' then '.' :: subDotWsAux 1 rest
      else '.' :: c :: subDotWsAux 0 rest
  | 2, [] => []
  | 2, c :: rest =>
      if pySpace c then subDotWsAux 2 rest
      else if c = '.' then subDotWsAux 1 rest
      else c :: subDotWsAux 0 rest
  | _ + 3, l => l

/-- re.sub of a dot plus whitespace run by an underscore. -/
def subDotWs (l : List Char) : List Char := subDotWsAux 0 l

/-- Collapse every maximal run of characters satisfying p into the single
character rep.  The flag records whether the previous character was part of a
run.  Models re.sub of a one-character-class plus with a single character. -/
def collapseRuns (p : Char → Bool) (rep : Char) : Bool → List Char → List Char
  | _, [] => []
  | inRun, c :: rest =>
      if p c then
        if inRun then collapseRuns p rep true rest
        else rep :: collapseRuns p rep true rest
      else c :: collapseRuns p rep false rest

/-- re.sub of a whitespace run by one underscore (line 644). -/
def subWs (l : List Char) : List Char := collapseRuns pySpace '_' false l

/-- re.sub of a dot run by one dot (line 646). -/
def subDots (l : List Char) : List Char := collapseRuns (fun c => c = '.') '.' false l

/-- Drop trailing characters satisfying p; the result is a prefix of the
input. -/
def dropTrailing (p : Char → Bool) : List Char → List Char
  | [] => []
  | c :: rest =>
      match dropTrailing p rest with
      | [] => if p c then [] else [c]
      | r => c :: r

/-- Python str.strip with a set of characters: drop them from both ends. -/
def stripChars (p : Char → Bool) (l : List Char) : List Char :=
  dropTrailing p (l.dropWhile p)

/-- Membership in the strip set of line 649: dot, space, underscore. -/
def stripSetA (c : Char) : Bool := c = '.' || c = ' ' || c = '_'

/-- Membership in the strip set of line 656: dot only. -/
def stripSetB (c : Char) : Bool := c = '.'

/-- The character pipeline of _sanitize_folder_name, lines 638-656: the
character-class substitution, the dot-whitespace substitution, the
whitespace-run and dot-run collapses, the first strip, the truncation to 50
characters, and the final dot strip. -/
def sanitizeCore (l : List Char) : List Char :=
  stripChars stripSetB ((stripChars stripSetA (subDots (subWs (subDotWs (replaceBad l))))).take 50)

/-- Embedding of _sanitize_folder_name (unified.py lines 630-658). -/
def sanitizeFolderName (name : String) : String :=
  if name = "" then "Unknown"
  else if sanitizeCore name.data = [] then "Unknown"
  else String.mk (sanitizeCore name.data)

/-!
## Disk-watermark backpressure

Embedding of DICOMDownloadClient._wait_for_disk_low
(src/src/client/unified.py lines 182-215).  The directory size observed at
each check is an input: current is the size seen by the check made before
the loop, and obs lists the sizes seen by the successive re-checks inside
the loop.  The returned value is the size observed when the method returns.
The loop body logs and sleeps; neither affects the result.  The exception
branches (unreadable directory) are not reachable in this model because the
observations are given. -/
def waitForDiskLow (high low : ℚ) : ℚ → List ℚ → ℚ
  | current, obs =>
    if current ≥ high then
      match obs with
      | [] => current
      | c :: rest => if c ≤ low then c else waitForDiskLow high low c rest
    else current

/-!
## Field-strength bucketing

Embedding of the standardFieldStrength computation in extract_hardware_features
(src/MR_clean.py lines 489-505).  The input is the result of safe_to_numeric on
MagneticFieldStrength (none models NaN).  pd.cut is applied with bins
(-inf, 1, 2, 4, inf), labels Low-Field, 1.5T, 3.0T, High-Field and right=False,
so each interval is closed on the left and open on the right.  A NaN input
yields a NaN category, and the subsequent astype(str) renders it as the string
nan; the fillna that follows astype(str) therefore finds no missing values and
is a no-op. -/
def standardFieldStrength (v : Option ℚ) : String :=
  match v with
  | none => "nan"
  | some x =>
      if x < 1 then "Low-Field"
      else if x < 2 then "1.5T"
      else if x < 4 then "3.0T"
      else "High-Field"

/-!
## Series conversion: convert-or-keep

Embedding of the four conversion paths of src/src/core/convert.py:
convert_with_dcm2niix (individual mode lines 626-724, series mode lines
726-780) and convert_with_python_libs (individual mode lines 826-905, series
mode lines 907-1019).  A series directory is modelled as a list of files,
each tagged by kind: an original .dcm file, a produced NIfTI output, or any
other file.  The behaviour of the external dcm2niix tool and of the
per-instance pixel reads is supplied as an environment, since it is outside
the code under verification; everything the Python control flow does with
those observations is modelled.  Removal of an original is modelled as
succeeding (the code ignores os.remove errors).
-/

/-- A file in a series directory, tagged by the kind the conversion code
distinguishes (the name filters endswith .dcm and endswith .nii or
.nii.gz). -/
inductive FsFile where
  | dcm (name : String)
  | nifti (name : String)
  | other (name : String)
  deriving DecidableEq, Repr

/-- The listdir filter file.endswith two-dcm used before removal. -/
def isDcmFile : FsFile → Bool
  | .dcm _ => true
  | _ => false

/-- The listdir filter for produced NIfTI outputs. -/
def isNiftiFile : FsFile → Bool
  | .nifti _ => true
  | _ => false

/-- Zero-padded four-digit index used in output names, Python format idx:04d. -/
def pad4 (n : Nat) : String :=
  let s := toString n
  String.mk (List.replicate (4 - s.length) '0') ++ s

/-- Observed outcome of the up-to-three dcm2niix attempts for one file in
individual mode: the return code of the last attempt, and whether the
expected output file exists afterwards (the code checks os.path.exists only
when the return code is zero, but the file itself may or may not have been
written by the tool). -/
structure ToolFileRun where
  rcZero : Bool
  outWritten : Bool
  deriving DecidableEq, Repr

/-- Output name for file index i in individual mode (idx+1, zero padded). -/
def d2nIndOutName (outName : String) (i : Nat) : String :=
  outName ++ "_" ++ pad4 (i + 1) ++ ".nii.gz"

/-- The NIfTI files physically present after the individual-mode loop: one
for every run whose output was written. -/
def d2nIndWritten (outName : String) (runs : List ToolFileRun) : List FsFile :=
  runs.enum.filterMap fun p =>
    if p.2.outWritten then some (FsFile.nifti (d2nIndOutName outName p.1)) else none

/-- The outputs the loop itself records (success_count increments): return
code zero and output file present. -/
def d2nIndCounted (outName : String) (runs : List ToolFileRun) : List FsFile :=
  runs.enum.filterMap fun p =>
    if p.2.rcZero && p.2.outWritten then some (FsFile.nifti (d2nIndOutName outName p.1)) else none

/-- Final directory contents of convert_with_dcm2niix in individual mode:
the loop runs once per .dcm file, then all originals are removed exactly
when success_count is positive. -/
def convertWithDcm2niixIndividual (dcms : List String) (outName : String)
    (runs : List ToolFileRun) : List FsFile :=
  let dir0 : List FsFile := dcms.map FsFile.dcm
  let written := d2nIndWritten outName runs
  let counted := d2nIndCounted outName runs
  if counted.length > 0 then written else dir0 ++ written

/-- Observed outcome of the up-to-three dcm2niix attempts in series mode:
final return code, and the NIfTI files the tool left in the directory. -/
structure SeriesToolRun where
  rcZero : Bool
  created : List String
  deriving DecidableEq, Repr

/-- Final directory contents of convert_with_dcm2niix in series mode: on a
zero return code the code lists the NIfTI files in the directory, and if any
exist it deletes every file ending in .dcm. -/
def convertWithDcm2niixSeries (dcms : List String) (run : SeriesToolRun) : List FsFile :=
  let dirAfter := dcms.map FsFile.dcm ++ run.created.map FsFile.nifti
  let niftis := dirAfter.filter isNiftiFile
  if run.rcZero && !niftis.isEmpty then dirAfter.filter (fun f => !isDcmFile f)
  else dirAfter

/-- Final directory contents of convert_with_python_libs in individual mode
(DR/MG/DX): one conversion attempt per file (read, pixel array, save); the
originals are removed exactly when at least one file converted. -/
def convertWithPyLibsIndividual (dcms : List String) (outName : String)
    (oks : List Bool) : List FsFile :=
  let outs := (dcms.zip oks).enum.filterMap fun p =>
    if p.2.2 then some (FsFile.nifti (d2nIndOutName outName p.1)) else none
  if outs.length > 0 then outs else dcms.map FsFile.dcm ++ outs

/-- Per-file observations for the multi-slice pure-library path: whether
pydicom could read the file (slice_info entry) and whether it carries a
pixel array. -/
structure SliceEnv where
  parseOk : Bool
  hasPixel : Bool
  deriving DecidableEq, Repr

/-- Environment for convert_with_python_libs in series mode. -/
structure PySeriesEnv where
  hasPixelSingle : Bool
  saveOk : Bool
  slices : List SliceEnv
  deriving DecidableEq, Repr

/-- Final directory contents of convert_with_python_libs in series mode.
With a single file: convert it and remove the original on success.  With
several: build slice_info from the readable files, keep those with pixel
data, stack and save; any failure (no readable slice, no pixel data, save
raising) leaves the directory untouched, success removes every original. -/
def convertWithPyLibsSeries (dcms : List String) (outName : String)
    (env : PySeriesEnv) : List FsFile :=
  let dir0 : List FsFile := dcms.map FsFile.dcm
  match dcms with
  | [] => dir0
  | [_] =>
      if env.hasPixelSingle && env.saveOk then [FsFile.nifti (outName ++ ".nii.gz")]
      else dir0
  | _ =>
      let parsed := (dcms.zip env.slices).filter (fun p => p.2.parseOk)
      let withPix := parsed.filter (fun p => p.2.hasPixel)
      if parsed.isEmpty then dir0
      else if withPix.isEmpty then dir0
      else if env.saveOk then [FsFile.nifti (outName ++ ".nii.gz")]
      else dir0

/-!
## Affine construction

Embedding of build_affine_from_dicom (src/src/core/convert.py lines 145-192).
Tag values arrive as lists of parse results: an element none models a value on
which the Python float() call raises.  A missing attribute is the outer none.
PixelSpacing defaults to [1, 1] when absent.  Any raised exception inside the
body (missing tag, failed parse, or a numpy shape mismatch, which in this
model is a length condition) is caught and yields the 4 by 4 identity.
-/

/-- First three entries of a rational list as a vector (entries past the
length are irrelevant and default to zero). -/
def vec3 (l : List ℚ) : Fin 3 → ℚ := fun i => l.getD i 0

/-- Cross product of two 3-vectors, as computed by numpy.cross. -/
def cross3 (a b : Fin 3 → ℚ) : Fin 3 → ℚ :=
  ![a 1 * b 2 - a 2 * b 1, a 2 * b 0 - a 0 * b 2, a 0 * b 1 - a 1 * b 0]

/-- The LPS affine assembled on lines 181-185: columns are the scaled row
cosine, scaled column cosine, scaled slice cosine and the position; the last
row is that of the 4 by 4 identity. -/
def affineLps (r c s p : Fin 3 → ℚ) (rowSp colSp slSp : ℚ) :
    Matrix (Fin 4) (Fin 4) ℚ :=
  Matrix.of fun i j =>
    if hi : (i : ℕ) < 3 then
      let i3 : Fin 3 := ⟨i, hi⟩
      if j = 0 then r i3 * rowSp
      else if j = 1 then c i3 * colSp
      else if j = 2 then s i3 * slSp
      else p i3
    else if j = 3 then 1 else 0

/-- The LPS-to-RAS sign flip diag(-1, -1, 1, 1) of line 187. -/
def lpsToRas : Matrix (Fin 4) (Fin 4) ℚ :=
  Matrix.diagonal ![-1, -1, 1, 1]

/-- Parse a list of per-element parse results; none if any element failed. -/
def seqOpt : List (Option ℚ) → Option (List ℚ)
  | [] => some []
  | none :: _ => none
  | some x :: rest => (seqOpt rest).map (fun l => x :: l)

/-- Embedding of build_affine_from_dicom.  The Python function parses the
first three and next three entries of ImageOrientationPatient, every entry of
ImagePositionPatient, and the first two entries of PixelSpacing; the numpy
assignments then require at least six orientation entries, exactly three
position entries and at least two spacing entries, else they raise and the
except branch returns the identity. -/
def buildAffineFromDicom (iop ipp pixelSpacing : Option (List (Option ℚ)))
    (sliceSpacing : ℚ) (sliceCos : Option (Fin 3 → ℚ)) :
    Matrix (Fin 4) (Fin 4) ℚ :=
  match iop, ipp with
  | some iopl, some ippl =>
      let ps := pixelSpacing.getD [some 1, some 1]
      match seqOpt (iopl.take 3), seqOpt ((iopl.drop 3).take 3),
            seqOpt ippl, seqOpt (ps.take 2) with
      | some rowl, some coll, some pl, some psl =>
          if 6 ≤ iopl.length ∧ pl.length = 3 ∧ 2 ≤ psl.length then
            let r := vec3 rowl
            let c := vec3 coll
            let s := sliceCos.getD (cross3 r c)
            lpsToRas * affineLps r c s (vec3 pl) (psl.getD 0 1) (psl.getD 1 1) sliceSpacing
          else 1
      | _, _, _, _ => 1
  | _, _ => 1

/-!
## MR sequence classifier

Embedding of classify_sequence and its helpers (src/MR_clean.py lines
224-468).  The configuration file mr_clean_config.json is not part of the
repository snapshot; every cfg.get call in the source carries an inline
default, and those defaults are the field defaults of MRConfig below.  The
per-bucket threshold dictionary P selected from the field-strength bucket
enters the computation only through the seven threshold values, which are
fields here (none models a missing key, whose safe_to_numeric image is NaN).
Keyword lists are lowercased by the source before matching; the default
lists are already lowercase.  The Dixon desc tokens are matched exactly as
configured (the source does not lowercase them, so the uppercase defaults
never match the lowercased desc).
-/

structure MRConfig where
  localizerKeywords : List String := ["localizer", "survey", "scout"]
  localizerImgType : String := "LOCALIZER"
  t1MapKeywords : List String := ["t1_map", "t1map"]
  t2MapKeywords : List String := ["t2_map", "t2map"]
  adcKeywords : List String := ["adc"]
  faMapKeywords : List String := ["fa_map"]
  subtractionKeywords : List String := ["sub", "subtract"]
  mraKeywords : List String := ["mra", "mrv", "tof"]
  swiKeywords : List String := ["swi", "swan"]
  pwiKeywords : List String := ["pwi", "perf", "dsc"]
  mrsKeywords : List String := ["mrs", "svs", "csi", "spectro"]
  breathKeywords : List String := ["resp"]
  mipKeywords : List String := ["mip"]
  dwiBValueMin : Option ℚ := some 50
  fmriScanSeqToken : String := "ep"
  fmriKeywords : List String := ["fmri", "bold"]
  fmriClass : String := "fMRI_BOLD"
  stirTiMinFat : Option ℚ := some 90
  flairTiMin : Option ℚ := none
  stirTiMax : Option ℚ := none
  t2TeMin : Option ℚ := none
  t2TrMin : Option ℚ := none
  t1TrMax : Option ℚ := none
  t1TeMax : Option ℚ := none
  pdTeMax : Option ℚ := none
  greToken : String := "gr"
  seToken : String := "se"
  ssToken : String := "ss"
  spToken : String := "sp"
  singleShotKeywords : List String := ["haste", "ssfse"]
  singleShotEtlMin : Option ℚ := some 128
  fallbackTseTokens : List String := ["tse", "fse"]
  fallbackSeToken : String := "se"
  darkFluidToken : String := "tse_dark_fluid"
  mprIsoTokens : List String := ["mpr", "iso"]
  flash3dDim : String := "3D"
  mcKeywords : List String := ["blade", "propeller"]
  mcSuffix : String := "_MC"
  waterTokens : List String := ["WATER", " W ", "water"]
  fatTokens : List String := ["FAT", " F ", "fat"]
  inphaseTokens : List String := ["INPHASE", " IP ", "in_phase", "inphase"]
  outphaseTokens : List String := ["OUTPHASE", " OP ", "out_phase", "outphase"]
  t2StarMarker : String := "t2_star_echo"
  t2StarSplitToken : String := "echo"
  deriving Repr

/-- The MRConfig obtained when the configuration file supplies nothing: every
inline default of the source. -/
def defaultMRConfig : MRConfig := {}

/-- One row of the metadata frame, with the columns classify_sequence reads.
String fields hold the Python str() image of the tag (empty when the column
is absent); numeric fields hold the safe_to_numeric image, none for NaN. -/
structure MRRow where
  protocolNameLower : String := ""
  seriesDescription : String := ""
  scanningSequence : String := ""
  sequenceVariant : String := ""
  refinedImageType : String := ""
  standardDimension : String := ""
  imageType : String := ""
  hasMotionCorrection : Bool := false
  repetitionTime : Option ℚ := none
  echoTime : Option ℚ := none
  inversionTime : Option ℚ := none
  flipAngle : Option ℚ := none
  bValue : Option ℚ := none
  echoTrainLength : Option ℚ := none
  deriving DecidableEq, Repr

/-- Rule A of classify_sequence (lines 321-350): the ordered keyword chain
over the protocol name and series description. -/
def ruleA (cfg : MRConfig) (r : MRRow) : String :=
  let name := r.protocolNameLower
  let sdesc := strLower r.seriesDescription
  if strContainsAny name cfg.localizerKeywords || r.refinedImageType = cfg.localizerImgType then
    "LOCALIZER"
  else if strContainsAny name cfg.t1MapKeywords then "T1_MAP"
  else if strContainsAny name cfg.t2MapKeywords then "T2_MAP"
  else if strContainsAny name cfg.adcKeywords then "ADC"
  else if strContainsAny name cfg.faMapKeywords then "FA_MAP"
  else if strContainsAny name cfg.subtractionKeywords then "SUBTRACTION"
  else if strContainsAny name cfg.mraKeywords then "MRA"
  else if strContainsAny name cfg.swiKeywords then "SWI"
  else if strContainsAny name cfg.pwiKeywords then "PWI"
  else if strContainsAny name cfg.mrsKeywords then "MRS"
  else if strContainsAny sdesc cfg.breathKeywords then "BREATH MOVEMENT"
  else if strContainsAny sdesc cfg.mipKeywords then "MIP"
  else "UNKNOWN"

/-- The sequence-family determination of rule B (lines 379-400). -/
def seqFamily (cfg : MRConfig) (r : MRRow) : String :=
  let name := r.protocolNameLower
  let scanSeq := strLower r.scanningSequence
  let seqVar := strLower r.sequenceVariant
  if strContains scanSeq cfg.greToken then
    if strContains seqVar cfg.ssToken then "GRE_STEADY_STATE"
    else if strContains seqVar cfg.spToken then "GRE_SPOILED"
    else "GRE"
  else if strContains scanSeq cfg.seToken then
    if strContainsAny name cfg.singleShotKeywords || oGt r.echoTrainLength cfg.singleShotEtlMin then
      "SE_SingleShot"
    else if oGt r.echoTrainLength (some 1) then "TSE"
    else "SE"
  else "UNKNOWN"

/-- Rules A and B of classify_sequence (lines 321-411): the pair of the base
class after rule B and the sequence family it computed (the family feeds
rule C). -/
def ruleAB (cfg : MRConfig) (r : MRRow) : String × String :=
  let a := ruleA cfg r
  if a ≠ "UNKNOWN" then (a, "UNKNOWN")
  else
    let name := r.protocolNameLower
    let scanSeq := strLower r.scanningSequence
    let base1 :=
      if oGt r.bValue cfg.dwiBValueMin then
        if strContains name "dti" then "DTI" else "DWI"
      else if strContains scanSeq cfg.fmriScanSeqToken && strContainsAny name cfg.fmriKeywords then
        cfg.fmriClass
      else "UNKNOWN"
    if base1 ≠ "UNKNOWN" then (base1, "UNKNOWN")
    else if oGe r.inversionTime cfg.flairTiMin then ("T2_FLAIR", "UNKNOWN")
    else if oLe cfg.stirTiMinFat r.inversionTime && oLe r.inversionTime cfg.stirTiMax then
      ("T2_STIR", "UNKNOWN")
    else
      let fam := seqFamily cfg r
      if fam = "SE_SingleShot" then ("T2_SE_SingleShot", fam)
      else if fam ≠ "UNKNOWN" then
        if oGt r.echoTime cfg.t2TeMin then ("T2_" ++ fam, fam)
        else if oLt r.repetitionTime cfg.t1TrMax && oLt r.echoTime cfg.t1TeMax then
          ("T1_" ++ fam, fam)
        else if oGt r.repetitionTime cfg.t2TrMin && oLt r.echoTime cfg.pdTeMax
                && strContains name "pd" then
          ("PD_" ++ fam, fam)
        else ("UNKNOWN", fam)
      else ("UNKNOWN", fam)

/-- Rule C of classify_sequence (lines 413-453), applied to the result of
rules A and B.  Note the structure of the source: the t2 branch is a
stand-alone if statement whose assignment can be overwritten by the
following if/elif chain (dark fluid, t1, pd, flair, stir, dwi). -/
def ruleC (cfg : MRConfig) (r : MRRow) (bf : String × String) : String :=
  if bf.1 ≠ "UNKNOWN" then bf.1
  else
    let name := r.protocolNameLower
    let t2base :=
      if strContains name "t2" then
        if bf.2 = "UNKNOWN" then
          if strContainsAny name cfg.fallbackTseTokens then "T2_TSE"
          else if strContains name cfg.fallbackSeToken then "T2_SE"
          else "T2_NAME_BASED"
        else "T2_" ++ bf.2
      else "UNKNOWN"
    if strContains name cfg.darkFluidToken then "T2_FLAIR"
    else if strContains name "t1" then
      if bf.2 = "UNKNOWN" then
        if strContainsAny name cfg.fallbackTseTokens then "T1_TSE"
        else if strContains name cfg.fallbackSeToken then "T1_SE"
        else if cfg.mprIsoTokens.all (fun t => strContains name t)
                && r.standardDimension = cfg.flash3dDim then "T1_GRE_FLASH3D"
        else "T1_NAME_BASED"
      else "T1_" ++ bf.2
    else if strContains name "pd" then "PD_" ++ bf.2
    else if strContains name "flair" then "T2_FLAIR"
    else if strContains name "stir" then "T2_STIR"
    else if strContains name "dwi" || strContains name "diff" then "DWI"
    else t2base

/-- get_subtype_suffix (lines 224-274): Dixon outputs and T2-star echoes. -/
def getSubtypeSuffix (cfg : MRConfig) (r : MRRow) : String :=
  let desc := strLower (r.protocolNameLower ++ " " ++ r.seriesDescription)
  let parts := strSplitOn (strUpper r.imageType) "\\"
  if parts.contains "WATER" || strContainsAny desc cfg.waterTokens then "_WATER"
  else if parts.contains "FAT" || strContainsAny desc cfg.fatTokens then "_FAT"
  else if parts.contains "INPHASE" || strContainsAny desc cfg.inphaseTokens then "_INPHASE"
  else if parts.contains "OUTPHASE" || strContainsAny desc cfg.outphaseTokens then "_OUTPHASE"
  else if strContains desc cfg.t2StarMarker then
    let tl := (strSplitOn desc cfg.t2StarSplitToken).getLastD desc
    let digits := tl.data.filter Char.isDigit
    if digits.isEmpty then "" else "_ECHO" ++ String.mk digits
  else ""

/-- The motion-correction condition of lines 461-464. -/
def hasMcSuffix (cfg : MRConfig) (r : MRRow) : Bool :=
  strContainsAny r.protocolNameLower cfg.mcKeywords || r.hasMotionCorrection

/-- classify_sequence (lines 277-468): rules A, B, C and the suffix
post-processing. -/
def classifySequence (cfg : MRConfig) (r : MRRow) : String :=
  let bf := ruleAB cfg r
  let base := ruleC cfg r bf
  if base ≠ "UNKNOWN" then
    let fc := base ++ getSubtypeSuffix cfg r
    if hasMcSuffix cfg r then fc ++ cfg.mcSuffix else fc
  else "UNKNOWN"

/-!
## Orientation classification

Embedding of get_orientation (src/MR_clean.py lines 51-104).  The iop input
models row.get of ImageOrientationPatient: the outer none is a null value;
some none is a value whose ast.literal_eval parse raises or whose entries are
not numeric; some (some v) is a parsed numeric list (the length-six test of
line 76 is explicit).  The fallback keyword map defaults to the empty map.
-/

/-- The keyword fallback of lines 96-104. -/
def fallbackOrientation (fallback : List (String × List String)) (name : String) : String :=
  match fallback.find? (fun p => p.2.any (fun k => strContains name k)) with
  | some p => p.1
  | none => "UNKNOWN"

/-- get_orientation.  oblDom is orientation.oblique_dominance_ratio
(source default 9/10). -/
def getOrientation (oblDom : ℚ) (fallback : List (String × List String))
    (iop : Option (Option (List ℚ))) (protocolNameLower : String) : String :=
  match iop with
  | some (some v) =>
      if v.length = 6 then
        let n := cross3 (vec3 (v.take 3)) (vec3 (v.drop 3))
        let a0 := qAbs (n 0)
        let a1 := qAbs (n 1)
        let a2 := qAbs (n 2)
        let m := qMax (qMax a0 a1) a2
        if m ^ 2 < oblDom * (n 0 ^ 2 + n 1 ^ 2 + n 2 ^ 2) then "OBL"
        else if a0 = m then "SAG"
        else if a1 = m then "COR"
        else "AX"
      else fallbackOrientation fallback protocolNameLower
  | _ => fallbackOrientation fallback protocolNameLower

/-!
## Dynamic-series analysis

Embedding of analyze_dynamic_series (src/MR_clean.py lines 545-674) for the
rows of one study (the source loops over the StudyInstanceUID groups,
threading a global group-id counter; startId is the value of that counter
when the study is reached).  A row is identified by its position in the
frame, so the functions work on the enumerated list rows.enum.

Two implementation details of the source are replaced by equivalent or
refining choices, stated here so the correspondence can be checked:
the source iterates the dynamic fingerprints in pandas value_counts order
(count-descending) while this model iterates them in first-occurrence order,
which only permutes the fresh group ids; and the source sorts group members
with pandas sort_values (an unstable sort, NaN last) while this model uses a
stable merge sort with the same key, which fixes an order among ties that
the source leaves unspecified.  Fingerprints with no valid SeriesTime are
skipped by the source before the id is assigned or incremented, which equals
filtering them out up front.
-/

/-- Rounding to one decimal, the numeric_round_decimals default applied to
float fingerprint columns (numpy half-even rounding is modelled as rounding
to the nearest tenth; the choice never matters below because fingerprints
are only compared for equality). -/
def round1 (q : ℚ) : ℚ := (round (q * 10) : ℤ) / 10

/-- String image of a possibly-missing numeric fingerprint column: missing
values are filled with NA, present values rendered after rounding. -/
def fpNum : Option ℚ → String
  | none => "NA"
  | some q => toString (round1 q)

/-- One row of the frame as seen by stage four.  ippStr and iopStr are the
normalize_list_string images of the two spatial columns; sequenceClass was
written by stage three; numeric columns are pd.to_numeric images with none
for NaN. -/
structure DynRow where
  sequenceClass : String := ""
  ippStr : String := "NA"
  iopStr : String := "NA"
  sliceThickness : Option ℚ := none
  repetitionTime : Option ℚ := none
  echoTime : Option ℚ := none
  flipAngle : Option ℚ := none
  seriesTime : Option ℚ := none
  protocolNameLower : String := ""
  contrastBolusAgent : Option String := none
  deriving DecidableEq, Repr

/-- The fingerprint of lines 607-622: the joined string images of the
fingerprint columns in their configured order. -/
def dynFingerprint (r : DynRow) : String :=
  joinUnderscore
    [r.ippStr, r.iopStr, r.sequenceClass,
     fpNum r.sliceThickness, fpNum r.repetitionTime, fpNum r.echoTime, fpNum r.flipAngle]

/-- Eligibility for dynamic analysis (line 604): the sequence class is not in
the configured exclusion list (empty when the configuration is absent). -/
def dynEligible (excl : List String) (r : DynRow) : Bool :=
  !(excl.contains r.sequenceClass)

/-- The eligible rows of the study, tagged with their frame positions. -/
def studyEntries (excl : List String) (rows : List DynRow) : List (Nat × DynRow) :=
  rows.enum.filter (fun p => dynEligible excl p.2)

/-- The eligible rows bearing the fingerprint fp. -/
def studyMembers (excl : List String) (rows : List DynRow) (fp : String) :
    List (Nat × DynRow) :=
  (studyEntries excl rows).filter (fun p => dynFingerprint p.2 == fp)

/-- The comparison key of sort_values on SeriesTime: ascending, missing
times last. -/
def timeLe (a b : Nat × DynRow) : Bool :=
  match a.2.seriesTime, b.2.seriesTime with
  | some x, some y => decide (x ≤ y)
  | some _, none => true
  | none, some _ => false
  | none, none => true

/-- The fingerprints that form dynamic groups in this study: shared by more
than one eligible row (value_counts greater than one, line 630) and carrying
at least one valid SeriesTime (otherwise line 645 skips the group before any
assignment). -/
def processedFps (excl : List String) (rows : List DynRow) : List String :=
  (((studyEntries excl rows).map (fun p => dynFingerprint p.2)).dedup).filter
    (fun fp => decide (1 < (studyMembers excl rows fp).length)
      && (studyMembers excl rows fp).any (fun p => p.2.seriesTime.isSome))

/-- The fresh group id handed to the group of fingerprint fp. -/
def dynGroupId (excl : List String) (rows : List DynRow) (startId : Nat) (fp : String) : Nat :=
  startId + (processedFps excl rows).indexOf fp

/-- The phase label a member row receives (lines 648-656): the members are
sorted by SeriesTime ascending, the first becomes PRE and the one at sorted
position j becomes POST_j. -/
def dynPhase (excl : List String) (rows : List DynRow) (fp : String)
    (p : Nat × DynRow) : String :=
  let s := (studyMembers excl rows fp).mergeSort timeLe
  let j := s.indexOf p
  if j = 0 then "PRE" else "POST_" ++ toString j

/-- The dynamicGroup and dynamicPhase cells of one row after the per-study
loop: a row keeps the initialisation (NaN group, empty phase) unless it is
eligible and its fingerprint forms a processed dynamic group. -/
def dynAssign (excl : List String) (startId : Nat) (rows : List DynRow)
    (p : Nat × DynRow) : Option Nat × String :=
  let fp := dynFingerprint p.2
  if dynEligible excl p.2 && (processedFps excl rows).contains fp then
    (some (dynGroupId excl rows startId fp), dynPhase excl rows fp p)
  else (none, "")

/-- The dynamicGroup and dynamicPhase columns for the whole study. -/
def analyzeStudyDyn (excl : List String) (startId : Nat) (rows : List DynRow) :
    List (Option Nat × String) :=
  rows.enum.map (dynAssign excl startId rows)

/-- The default contrast_protocol_regex as its alternation of literal
tokens. -/
def contrastTokens : List String := ["+c", "post", "gd", "enh", "contrast", "增强", "dyn"]

/-- Series.astype(str) on a cell: a missing value becomes the string nan. -/
def astypeStr : Option String → String
  | none => "nan"
  | some s => s

/-- The isContrastEnhanced recomputation at the end of analyze_dynamic_series
(lines 666-672), evaluated on one row given its dynamicPhase: the phase
starts with POST or the protocol matches the contrast regex; the agent is
non-null; the agent string does not contain the exclude token (case folded;
the astype(str) before the match turns missing agents into the string nan);
and the sequence class does not match the exclusion regex (case folded). -/
def analyzeEnhanced (r : DynRow) (phase : String) : Bool :=
  (strStartsWith phase "POST" || strContainsAny r.protocolNameLower contrastTokens)
  && r.contrastBolusAgent.isSome
  && !(strContains (strLower (astypeStr r.contrastBolusAgent)) "no")
  && !(strContainsAny (strLower r.sequenceClass) ["dwi", "t2", "localizer"])

/-- The full study-level output of analyze_dynamic_series: per row the
dynamicGroup, the dynamicPhase and the recomputed isContrastEnhanced. -/
def analyzeDynamicSeries (excl : List String) (startId : Nat) (rows : List DynRow) :
    List (Option Nat × String × Bool) :=
  rows.enum.map (fun p =>
    let a := dynAssign excl startId rows p
    (a.1, a.2, analyzeEnhanced p.2 a.2))

/-- The isContrastEnhanced assignment process_mri_dataframe performs right
after stage four and before stage five (src/MR_clean.py lines 770-774): the
protocol name starts with t1, the agent is non-null, and the agent does not
contain the token no (str.contains with na=True on the raw column, so a
missing agent makes the negated term false). -/
def stage4Overwrite (r : DynRow) : Bool :=
  strStartsWith r.protocolNameLower "t1"
  && r.contrastBolusAgent.isSome
  && !(match r.contrastBolusAgent with
       | none => true
       | some s => strContains (strLower s) "no")

/-- The isContrastEnhanced column of the frame between stage four and stage
five of process_mri_dataframe. -/
def stage4IsContrastEnhanced (rows : List DynRow) : List Bool :=
  rows.map stage4Overwrite

/-- Two adjacent dots occur somewhere in the list (used to reason about the
dot-run collapsing step of the sanitiser). -/
def hasDD : List Char → Bool
  | a :: b :: rest => (a = '.' && b = '.') || hasDD (b :: rest)
  | _ => false

/-!
## Lemmas about the sanitiser pipeline

The following lemmas trace each pipeline stage of sanitizeFolderName: which
characters a stage can emit, how it moves the ends of the list, and when it
is the identity.  They feed the theorems about claim C2 below.
-/

theorem replaceBad_noBad {l : List Char} : ∀ c ∈ replaceBad l, winBadChar c = false := by
  intro c hc
  rcases List.mem_map.1 hc with ⟨a, _, rfl⟩
  by_cases h : winBadChar a = true
  · rw [if_pos h]; decide
  · rw [if_neg h]; simpa using h

theorem subDotWsAux_pres {P : Char → Prop} (hu : P '_') (hd : P '.') :
    ∀ (l : List Char) (st : Nat), (∀ c ∈ l, P c) → ∀ c ∈ subDotWsAux st l, P c := by
  intro l
  induction l with
  | nil =>
      intro st h c hc
      rcases st with _ | _ | _ | st
      · simp [subDotWsAux] at hc
      · simp [subDotWsAux] at hc
        exact hc ▸ hd
      · simp [subDotWsAux] at hc
      · simp [subDotWsAux] at hc
  | cons a rest ih =>
      intro st h c hc
      have ha : P a := h a (List.mem_cons_self a rest)
      have hrest : ∀ x ∈ rest, P x := fun x hx => h x (List.mem_cons_of_mem a hx)
      rcases st with _ | _ | _ | st
      · by_cases hdot : a = '.'
        · rw [show subDotWsAux 0 (a :: rest) = subDotWsAux 1 rest by
            simp [subDotWsAux, hdot]] at hc
          exact ih 1 hrest c hc
        · rw [show subDotWsAux 0 (a :: rest) = a :: subDotWsAux 0 rest by
            simp [subDotWsAux, hdot]] at hc
          rcases List.mem_cons.1 hc with rfl | hc
          · exact ha
          · exact ih 0 hrest c hc
      · by_cases hsp : pySpace a = true
        · rw [show subDotWsAux 1 (a :: rest) = '_' :: subDotWsAux 2 rest by
            simp [subDotWsAux, hsp]] at hc
          rcases List.mem_cons.1 hc with rfl | hc
          · exact hu
          · exact ih 2 hrest c hc
        · by_cases hdot : a = '.'
          · rw [show subDotWsAux 1 (a :: rest) = '.' :: subDotWsAux 1 rest by
              simp [subDotWsAux, hsp, hdot, (by decide : pySpace '.' = false)]] at hc
            rcases List.mem_cons.1 hc with rfl | hc
            · exact hd
            · exact ih 1 hrest c hc
          · rw [show subDotWsAux 1 (a :: rest) = '.' :: a :: subDotWsAux 0 rest by
              simp [subDotWsAux, hsp, hdot]] at hc
            rcases List.mem_cons.1 hc with rfl | hc
            · exact hd
            · rcases List.mem_cons.1 hc with rfl | hc
              · exact ha
              · exact ih 0 hrest c hc
      · by_cases hsp : pySpace a = true
        · rw [show subDotWsAux 2 (a :: rest) = subDotWsAux 2 rest by
            simp [subDotWsAux, hsp]] at hc
          exact ih 2 hrest c hc
        · by_cases hdot : a = '.'
          · rw [show subDotWsAux 2 (a :: rest) = subDotWsAux 1 rest by
              simp [subDotWsAux, hsp, hdot, (by decide : pySpace '.' = false)]] at hc
            exact ih 1 hrest c hc
          · rw [show subDotWsAux 2 (a :: rest) = a :: subDotWsAux 0 rest by
              simp [subDotWsAux, hsp, hdot]] at hc
            rcases List.mem_cons.1 hc with rfl | hc
            · exact ha
            · exact ih 0 hrest c hc
      · rw [show subDotWsAux (st + 3) (a :: rest) = a :: rest from rfl] at hc
        exact h c hc

theorem collapseRuns_chars {p : Char → Bool} {rep : Char} :
    ∀ (l : List Char) (b : Bool), ∀ c ∈ collapseRuns p rep b l, c = rep ∨ (c ∈ l ∧ p c = false) := by
  intro l
  induction l with
  | nil => intro b c hc; simp [collapseRuns] at hc
  | cons a rest ih =>
      intro b c hc
      by_cases hp : p a = true
      · cases b
        · rw [show collapseRuns p rep false (a :: rest) = rep :: collapseRuns p rep true rest by
            simp [collapseRuns, hp]] at hc
          rcases List.mem_cons.1 hc with rfl | hc
          · exact Or.inl rfl
          · rcases ih true c hc with h | ⟨h1, h2⟩
            · exact Or.inl h
            · exact Or.inr ⟨List.mem_cons_of_mem a h1, h2⟩
        · rw [show collapseRuns p rep true (a :: rest) = collapseRuns p rep true rest by
            simp [collapseRuns, hp]] at hc
          rcases ih true c hc with h | ⟨h1, h2⟩
          · exact Or.inl h
          · exact Or.inr ⟨List.mem_cons_of_mem a h1, h2⟩
      · have hstep : collapseRuns p rep b (a :: rest) = a :: collapseRuns p rep false rest := by
          cases b <;> simp [collapseRuns, hp]
        rw [hstep] at hc
        rcases List.mem_cons.1 hc with rfl | hc
        · exact Or.inr ⟨List.mem_cons_self _ _, by simpa using hp⟩
        · rcases ih false c hc with h | ⟨h1, h2⟩
          · exact Or.inl h
          · exact Or.inr ⟨List.mem_cons_of_mem a h1, h2⟩

theorem dropWhile_head_prop {p : Char → Bool} :
    ∀ {l : List Char} {c : Char}, (l.dropWhile p).head? = some c → p c = false := by
  intro l
  induction l with
  | nil => intro c hc; simp [List.dropWhile] at hc
  | cons a rest ih =>
      intro c hc
      by_cases hp : p a = true
      · rw [List.dropWhile_cons_of_pos hp] at hc
        exact ih hc
      · rw [List.dropWhile_cons_of_neg hp] at hc
        simp only [List.head?_cons, Option.some.injEq] at hc
        rw [← hc]
        simpa using hp

theorem dropTrailing_pre (p : Char → Bool) : ∀ l : List Char, dropTrailing p l <+: l := by
  intro l
  induction l with
  | nil => exact List.prefix_refl _
  | cons a rest ih =>
      show dropTrailing p (a :: rest) <+: a :: rest
      rw [dropTrailing]
      cases hd : dropTrailing p rest with
      | nil =>
          by_cases hp : p a = true
          · simp [hp]
          · simp [hp]
      | cons d ds =>
          rcases (hd ▸ ih) with ⟨t, ht⟩
          exact ⟨t, by simp [← ht]⟩

theorem dropTrailing_getLast {p : Char → Bool} :
    ∀ {l : List Char} {c : Char}, (dropTrailing p l).getLast? = some c → p c = false := by
  intro l
  induction l with
  | nil => intro c hc; simp [dropTrailing] at hc
  | cons a rest ih =>
      intro c hc
      rw [dropTrailing] at hc
      cases hd : dropTrailing p rest with
      | nil =>
          rw [hd] at hc
          by_cases hp : p a = true
          · simp [hp] at hc
          · simp [hp] at hc
            rw [← hc]
            simpa using hp
      | cons d ds =>
          rw [hd] at hc
          rw [List.getLast?_cons_cons] at hc
          exact ih (hd ▸ hc)

theorem dropTrailing_head {p : Char → Bool} :
    ∀ {l : List Char} {c : Char}, (dropTrailing p l).head? = some c → l.head? = some c := by
  intro l
  induction l with
  | nil => intro c hc; simp [dropTrailing] at hc
  | cons a rest _ =>
      intro c hc
      rw [dropTrailing] at hc
      cases hd : dropTrailing p rest with
      | nil =>
          rw [hd] at hc
          by_cases hp : p a = true
          · simp [hp] at hc
          · simp [hp] at hc
            simp [hc]
      | cons d ds =>
          rw [hd] at hc
          simp only [List.head?_cons, Option.some.injEq] at hc
          simp [hc]

theorem stripChars_subset {p : Char → Bool} {l : List Char} :
    ∀ c ∈ stripChars p l, c ∈ l := by
  intro c hc
  have h1 : c ∈ l.dropWhile p := ((dropTrailing_pre p _).sublist.subset) hc
  exact (List.dropWhile_sublist (l := l) (p := p)).subset h1

theorem stripChars_head {p : Char → Bool} {l : List Char} {c : Char}
    (h : (stripChars p l).head? = some c) : p c = false :=
  dropWhile_head_prop (dropTrailing_head h)

theorem stripChars_getLast {p : Char → Bool} {l : List Char} {c : Char}
    (h : (stripChars p l).getLast? = some c) : p c = false :=
  dropTrailing_getLast h

theorem stripChars_length_le {p : Char → Bool} (l : List Char) :
    (stripChars p l).length ≤ l.length :=
  le_trans ((dropTrailing_pre p _).length_le)
    ((List.dropWhile_sublist (l := l) (p := p)).length_le)

theorem hasDD_cons_false {a : Char} {l : List Char} (h : hasDD (a :: l) = false) :
    hasDD l = false := by
  cases l with
  | nil => rfl
  | cons b bs =>
      rw [hasDD] at h
      exact (Bool.or_eq_false_iff.1 h).2

theorem hasDD_cons_pair {a b : Char} {l : List Char} (h : hasDD (a :: b :: l) = false)
    (ha : a = '.') : b ≠ '.' := by
  rw [hasDD] at h
  have h1 := (Bool.or_eq_false_iff.1 h).1
  rw [ha] at h1
  simpa using h1

theorem hasDD_false_prefix {l' l : List Char} (hp : l' <+: l) (h : hasDD l = false) :
    hasDD l' = false := by
  induction l' generalizing l with
  | nil => rfl
  | cons a l'' ih =>
      rcases hp with ⟨t, ht⟩
      subst ht
      cases l'' with
      | nil => rfl
      | cons b l3 =>
          rw [hasDD]
          rw [show (a :: b :: l3) ++ t = a :: b :: (l3 ++ t) by simp] at h
          rw [hasDD] at h
          rcases Bool.or_eq_false_iff.1 h with ⟨h1, h2⟩
          rw [h1, Bool.false_or]
          exact ih ⟨t, by simp⟩ h2

theorem hasDD_false_dropWhile {p : Char → Bool} {l : List Char} (h : hasDD l = false) :
    hasDD (l.dropWhile p) = false := by
  induction l with
  | nil => rfl
  | cons a rest ih =>
      by_cases hp : p a = true
      · rw [List.dropWhile_cons_of_pos hp]
        exact ih (hasDD_cons_false h)
      · rw [List.dropWhile_cons_of_neg hp]
        exact h

theorem hasDD_false_stripChars {p : Char → Bool} {l : List Char} (h : hasDD l = false) :
    hasDD (stripChars p l) = false :=
  hasDD_false_prefix (dropTrailing_pre p _) (hasDD_false_dropWhile h)

theorem hasDD_false_take {l : List Char} (n : Nat) (h : hasDD l = false) :
    hasDD (l.take n) = false :=
  hasDD_false_prefix (List.take_prefix n l) h

theorem collapseDots_props : ∀ l : List Char,
    hasDD (collapseRuns (fun c => c = '.') '.' false l) = false ∧
    hasDD (collapseRuns (fun c => c = '.') '.' true l) = false ∧
    (∀ c, (collapseRuns (fun c => c = '.') '.' true l).head? = some c → c ≠ '.') := by
  intro l
  induction l with
  | nil => refine ⟨rfl, rfl, ?_⟩; intro c hc; simp [collapseRuns] at hc
  | cons a rest ih =>
      obtain ⟨ihf, iht, ihh⟩ := ih
      by_cases ha : a = '.'
      · have hstepf : collapseRuns (fun c => c = '.') '.' false (a :: rest) =
            '.' :: collapseRuns (fun c => c = '.') '.' true rest := by
          simp [collapseRuns, ha]
        have hstept : collapseRuns (fun c => c = '.') '.' true (a :: rest) =
            collapseRuns (fun c => c = '.') '.' true rest := by
          simp [collapseRuns, ha]
        refine ⟨?_, by rw [hstept]; exact iht, ?_⟩
        · rw [hstepf]
          cases hx : collapseRuns (fun c => c = '.') '.' true rest with
          | nil => rfl
          | cons b bs =>
              rw [hasDD]
              have hb : b ≠ '.' := ihh b (by rw [hx]; rfl)
              simp only [hb, decide_eq_false, Bool.and_false, Bool.false_or]
              simpa using (hx ▸ iht)
        · intro c hc
          rw [hstept] at hc
          exact ihh c hc
      · have hstep : ∀ b, collapseRuns (fun c => c = '.') '.' b (a :: rest) =
            a :: collapseRuns (fun c => c = '.') '.' false rest := by
          intro b; cases b <;> simp [collapseRuns, ha]
        have hmain : hasDD (a :: collapseRuns (fun c => c = '.') '.' false rest) = false := by
          cases hx : collapseRuns (fun c => c = '.') '.' false rest with
          | nil => rfl
          | cons b bs =>
              rw [hasDD]
              simp only [ha, decide_eq_false, Bool.false_and, Bool.false_or]
              simpa using (hx ▸ ihf)
        refine ⟨by rw [hstep false]; exact hmain, by rw [hstep true]; exact hmain, ?_⟩
        intro c hc
        rw [hstep true] at hc
        simp only [List.head?_cons, Option.some.injEq] at hc
        exact hc ▸ ha

theorem replaceBad_noop {l : List Char} (h : ∀ c ∈ l, winBadChar c = false) :
    replaceBad l = l := by
  induction l with
  | nil => rfl
  | cons a rest ih =>
      have ha : winBadChar a = false := h a (List.mem_cons_self _ _)
      have hr : replaceBad rest = rest := ih (fun c hc => h c (List.mem_cons_of_mem a hc))
      simp [replaceBad, ha] at *
      exact hr

theorem subDotWs_noop {l : List Char} (h : ∀ c ∈ l, pySpace c = false) :
    subDotWsAux 0 l = l ∧ subDotWsAux 1 l = '.' :: l := by
  induction l with
  | nil => exact ⟨rfl, rfl⟩
  | cons a rest ih =>
      have ha : pySpace a = false := h a (List.mem_cons_self _ _)
      obtain ⟨ih0, ih1⟩ := ih (fun c hc => h c (List.mem_cons_of_mem a hc))
      constructor
      · by_cases hdot : a = '.'
        · rw [show subDotWsAux 0 (a :: rest) = subDotWsAux 1 rest by simp [subDotWsAux, hdot]]
          rw [ih1, hdot]
        · rw [show subDotWsAux 0 (a :: rest) = a :: subDotWsAux 0 rest by simp [subDotWsAux, hdot]]
          rw [ih0]
      · by_cases hdot : a = '.'
        · rw [show subDotWsAux 1 (a :: rest) = '.' :: subDotWsAux 1 rest by
            simp [subDotWsAux, ha, hdot, (by decide : pySpace '.' = false)]]
          rw [ih1, hdot]
        · rw [show subDotWsAux 1 (a :: rest) = '.' :: a :: subDotWsAux 0 rest by
            simp [subDotWsAux, ha, hdot]]
          rw [ih0]

theorem collapseRuns_false_noop {p : Char → Bool} {rep : Char} {l : List Char}
    (h : ∀ c ∈ l, p c = false) : collapseRuns p rep false l = l := by
  induction l with
  | nil => rfl
  | cons a rest ih =>
      have ha : p a = false := h a (List.mem_cons_self _ _)
      rw [show collapseRuns p rep false (a :: rest) = a :: collapseRuns p rep false rest by
        simp [collapseRuns, ha]]
      rw [ih (fun c hc => h c (List.mem_cons_of_mem a hc))]

theorem collapseDots_noop : ∀ l : List Char, hasDD l = false →
    (collapseRuns (fun c => c = '.') '.' false l = l) ∧
    ((∀ c, l.head? = some c → c ≠ '.') → collapseRuns (fun c => c = '.') '.' true l = l) := by
  intro l
  induction l with
  | nil => exact fun _ => ⟨rfl, fun _ => rfl⟩
  | cons a rest ih =>
      intro h
      have hrest : hasDD rest = false := hasDD_cons_false h
      obtain ⟨ihf, iht⟩ := ih hrest
      constructor
      · by_cases ha : a = '.'
        · rw [show collapseRuns (fun c => c = '.') '.' false (a :: rest) =
              '.' :: collapseRuns (fun c => c = '.') '.' true rest by simp [collapseRuns, ha]]
          have : collapseRuns (fun c => c = '.') '.' true rest = rest := by
            apply iht
            intro c hc
            cases rest with
            | nil => simp at hc
            | cons b bs =>
                simp only [List.head?_cons, Option.some.injEq] at hc
                exact hc ▸ hasDD_cons_pair h ha
          rw [this, ha]
        · rw [show collapseRuns (fun c => c = '.') '.' false (a :: rest) =
              a :: collapseRuns (fun c => c = '.') '.' false rest by simp [collapseRuns, ha]]
          rw [ihf]
      · intro hh
        have ha : a ≠ '.' := hh a rfl
        rw [show collapseRuns (fun c => c = '.') '.' true (a :: rest) =
            a :: collapseRuns (fun c => c = '.') '.' false rest by simp [collapseRuns, ha]]
        rw [ihf]

theorem dropWhile_noop {p : Char → Bool} {l : List Char}
    (h : ∀ c, l.head? = some c → p c = false) : l.dropWhile p = l := by
  cases l with
  | nil => rfl
  | cons a rest => exact List.dropWhile_cons_of_neg (by simp [h a rfl])

theorem dropTrailing_noop {p : Char → Bool} :
    ∀ {l : List Char}, (∀ c, l.getLast? = some c → p c = false) → dropTrailing p l = l := by
  intro l
  induction l with
  | nil => intro _; rfl
  | cons a rest ih =>
      intro h
      rw [dropTrailing]
      cases hr : rest with
      | nil =>
          have ha : p a = false := h a (by rw [hr]; rfl)
          simp [dropTrailing, ha]
      | cons b bs =>
          have hrec : dropTrailing p rest = rest := by
            apply ih
            intro c hc
            apply h
            rw [hr] at hc ⊢
            rw [List.getLast?_cons_cons]
            exact hc
          rw [hr] at hrec
          rw [hrec]

theorem pySpace_space_false {c : Char} (h : pySpace c = false) : c ≠ ' ' := by
  intro hc
  subst hc
  simp [pySpace] at h

theorem stripSetA_of_parts {c : Char} (h1 : c ≠ '.') (h2 : c ≠ ' ') (h3 : c ≠ '_') :
    stripSetA c = false := by
  simp [stripSetA, h1, h2, h3]

theorem stripSetB_of_stripSetA {c : Char} (h : stripSetA c = false) : stripSetB c = false := by
  rcases Bool.or_eq_false_iff.1 h with ⟨h1, _⟩
  rcases Bool.or_eq_false_iff.1 h1 with ⟨h2, _⟩
  simpa [stripSetB] using h2

theorem stripSetA_ne_dot {c : Char} (h : stripSetA c = false) : c ≠ '.' := by
  rcases Bool.or_eq_false_iff.1 h with ⟨h1, _⟩
  rcases Bool.or_eq_false_iff.1 h1 with ⟨h2, _⟩
  simpa using h2

theorem head?_take50 (l : List Char) : (l.take 50).head? = l.head? := by
  cases l <;> rfl

/-- The six structural facts that hold of every output of the sanitiser
pipeline. -/
theorem sanitizeCore_props (l : List Char) :
    (sanitizeCore l).length ≤ 50 ∧
    (∀ c ∈ sanitizeCore l, winBadChar c = false) ∧
    (∀ c ∈ sanitizeCore l, pySpace c = false) ∧
    hasDD (sanitizeCore l) = false ∧
    (∀ c, (sanitizeCore l).head? = some c → stripSetA c = false) ∧
    (∀ c, (sanitizeCore l).getLast? = some c → c ≠ '.') := by
  have h1bad : ∀ c ∈ replaceBad l, winBadChar c = false := replaceBad_noBad
  have h2bad : ∀ c ∈ subDotWs (replaceBad l), winBadChar c = false :=
    subDotWsAux_pres (by decide) (by decide) _ 0 h1bad
  have h3bad : ∀ c ∈ subWs (subDotWs (replaceBad l)), winBadChar c = false := by
    intro c hc
    rcases collapseRuns_chars _ false c hc with rfl | ⟨hmem, _⟩
    · decide
    · exact h2bad c hmem
  have h3ws : ∀ c ∈ subWs (subDotWs (replaceBad l)), pySpace c = false := by
    intro c hc
    rcases collapseRuns_chars _ false c hc with rfl | ⟨_, hp⟩
    · decide
    · exact hp
  have h4bad : ∀ c ∈ subDots (subWs (subDotWs (replaceBad l))), winBadChar c = false := by
    intro c hc
    rcases collapseRuns_chars _ false c hc with rfl | ⟨hmem, _⟩
    · decide
    · exact h3bad c hmem
  have h4ws : ∀ c ∈ subDots (subWs (subDotWs (replaceBad l))), pySpace c = false := by
    intro c hc
    rcases collapseRuns_chars _ false c hc with rfl | ⟨hmem, _⟩
    · decide
    · exact h3ws c hmem
  have h4dd : hasDD (subDots (subWs (subDotWs (replaceBad l)))) = false :=
    (collapseDots_props _).1
  have h5sub := @stripChars_subset stripSetA (subDots (subWs (subDotWs (replaceBad l))))
  have h5dd : hasDD (stripChars stripSetA (subDots (subWs (subDotWs (replaceBad l))))) = false :=
    hasDD_false_stripChars h4dd
  have h5head := @stripChars_head stripSetA (subDots (subWs (subDotWs (replaceBad l))))
  have h6sub := List.take_subset 50 (stripChars stripSetA (subDots (subWs (subDotWs (replaceBad l)))))
  have h6dd := hasDD_false_take 50 h5dd
  have h6head : ∀ c,
      ((stripChars stripSetA (subDots (subWs (subDotWs (replaceBad l))))).take 50).head? = some c →
      stripSetA c = false := by
    intro c hc
    rw [head?_take50] at hc
    exact h5head hc
  have h6len : ((stripChars stripSetA (subDots (subWs (subDotWs (replaceBad l))))).take 50).length ≤ 50 := by
    rw [List.length_take]
    exact min_le_left _ _
  have hB6 : (((stripChars stripSetA (subDots (subWs (subDotWs (replaceBad l))))).take 50).dropWhile stripSetB) =
      (stripChars stripSetA (subDots (subWs (subDotWs (replaceBad l))))).take 50 :=
    dropWhile_noop (fun c hc => stripSetB_of_stripSetA (h6head c hc))
  refine ⟨?_, ?_, ?_, ?_, ?_, ?_⟩
  · exact le_trans (stripChars_length_le _) h6len
  · intro c hc
    exact h4bad c (stripChars_subset c (h6sub (stripChars_subset c hc)))
  · intro c hc
    exact h4ws c (stripChars_subset c (h6sub (stripChars_subset c hc)))
  · exact hasDD_false_stripChars h6dd
  · intro c hc
    rw [show sanitizeCore l =
        dropTrailing stripSetB ((stripChars stripSetA (subDots (subWs (subDotWs (replaceBad l))))).take 50) by
      rw [sanitizeCore, stripChars, hB6]] at hc
    exact h6head c (dropTrailing_head hc)
  · intro c hc
    have := stripChars_getLast (p := stripSetB) hc
    simpa [stripSetB] using this

/-- The pipeline is the identity on a list that already satisfies the
structural facts and whose ends carry no strippable character. -/
theorem sanitizeCore_noop (l : List Char)
    (hbad : ∀ c ∈ l, winBadChar c = false)
    (hws : ∀ c ∈ l, pySpace c = false)
    (hdd : hasDD l = false)
    (hhead : ∀ c, l.head? = some c → stripSetA c = false)
    (hlast : ∀ c, l.getLast? = some c → stripSetA c = false)
    (hlen : l.length ≤ 50) :
    sanitizeCore l = l := by
  rw [sanitizeCore]
  rw [replaceBad_noop hbad]
  rw [show subDotWs l = l by rw [subDotWs]; exact (subDotWs_noop hws).1]
  rw [show subWs l = l from collapseRuns_false_noop hws]
  rw [show subDots l = l from (collapseDots_noop l hdd).1]
  rw [show stripChars stripSetA l = l by
    rw [stripChars, dropWhile_noop hhead, dropTrailing_noop hlast]]
  rw [List.take_of_length_le hlen]
  rw [stripChars, dropWhile_noop (fun c hc => stripSetB_of_stripSetA (hhead c hc)),
    dropTrailing_noop (fun c hc => stripSetB_of_stripSetA (hlast c hc))]

/-- C2: the claim fails on the code in two ways, shown at explicit inputs.
The sanitiser does not replace the colon, so the output of sanitising a:b
still contains a colon, one of the characters the claim says can never
survive; and sanitising a 51-character name whose 50th character is an
underscore yields a string that a second sanitisation changes, so the
sanitiser is not idempotent. -/
theorem c2_sanitize_counterexample :
    (':' ∈ (sanitizeFolderName "a:b").data) ∧
    sanitizeFolderName (sanitizeFolderName (String.mk (List.replicate 49 'a') ++ "_b")) ≠
      sanitizeFolderName (String.mk (List.replicate 49 'a') ++ "_b") := by
  constructor
  · decide
  · decide

/-- C2 (amended): for every name, the sanitised result has at most 50
characters, contains none of the eight replaced characters (the colon is not
among them), contains no whitespace at all (hence no leading or trailing
space), and neither starts nor ends with a dot; and the sanitiser is
idempotent on every input whose sanitised form does not end with an
underscore (truncation to 50 characters can expose a trailing underscore,
which only a second pass strips). -/
theorem c2_sanitize_amended (n : String) :
    (sanitizeFolderName n).data.length ≤ 50 ∧
    (∀ c ∈ (sanitizeFolderName n).data, winBadChar c = false) ∧
    (∀ c ∈ (sanitizeFolderName n).data, pySpace c = false) ∧
    (∀ c, (sanitizeFolderName n).data.head? = some c → c ≠ '.') ∧
    (∀ c, (sanitizeFolderName n).data.getLast? = some c → c ≠ '.') ∧
    ((∀ c, (sanitizeFolderName n).data.getLast? = some c → c ≠ '_') →
      sanitizeFolderName (sanitizeFolderName n) = sanitizeFolderName n) := by
  by_cases hn : n = ""
  · subst hn
    exact ⟨by decide, by decide, by decide, by decide, by decide, fun _ => by decide⟩
  · obtain ⟨hlen, hbad, hws, hdd, hhead, hlast⟩ := sanitizeCore_props n.data
    by_cases h7 : sanitizeCore n.data = []
    · have hu : sanitizeFolderName n = "Unknown" := by
        rw [sanitizeFolderName, if_neg hn, if_pos h7]
      rw [hu]
      exact ⟨by decide, by decide, by decide, by decide, by decide, fun _ => by decide⟩
    · have hr : sanitizeFolderName n = String.mk (sanitizeCore n.data) := by
        rw [sanitizeFolderName, if_neg hn, if_neg h7]
      have hdata : (sanitizeFolderName n).data = sanitizeCore n.data := by rw [hr]
      refine ⟨?_, ?_, ?_, ?_, ?_, ?_⟩
      · rw [hdata]; exact hlen
      · rw [hdata]; exact hbad
      · rw [hdata]; exact hws
      · rw [hdata]; intro c hc; exact stripSetA_ne_dot (hhead c hc)
      · rw [hdata]; exact hlast
      · rw [hdata]
        intro hund
        have hlastA : ∀ c, (sanitizeCore n.data).getLast? = some c → stripSetA c = false := by
          intro c hc
          have hmem : c ∈ sanitizeCore n.data := List.mem_of_getLast?_eq_some hc
          exact stripSetA_of_parts (hlast c hc) (pySpace_space_false (hws c hmem)) (hund c hc)
        have hcore : sanitizeCore (sanitizeCore n.data) = sanitizeCore n.data :=
          sanitizeCore_noop _ hbad hws hdd hhead hlastA hlen
        have hne : String.mk (sanitizeCore n.data) ≠ "" := by
          intro hcontra
          exact h7 (congrArg String.data hcontra)
        rw [hr]
        rw [sanitizeFolderName, if_neg hne]
        have hdm : (String.mk (sanitizeCore n.data)).data = sanitizeCore n.data := rfl
        rw [hdm, hcore, if_neg h7]

/-- C2 witness: the amended statement applied at a concrete name whose
sanitised form does not end in an underscore. -/
theorem c2_sanitize_amended_witness :
    (sanitizeFolderName "303. X  Elbow..test. ").data.length ≤ 50 ∧
    sanitizeFolderName (sanitizeFolderName "303. X  Elbow..test. ") =
      sanitizeFolderName "303. X  Elbow..test. " := by
  obtain ⟨h1, _, _, _, _, h6⟩ := c2_sanitize_amended "303. X  Elbow..test. "
  exact ⟨h1, h6 (by decide)⟩

/-- C3: with the default watermarks (high 45 GB, low 40 GB, the constructor
defaults of DICOMDownloadClient), a wait that is entered at an observed size
of 46 GB and whose next re-check observes 42 GB returns at 42 GB, which is
still above the low watermark: the while condition stops looping as soon as
the size falls below the high watermark, while the docstring of
_wait_for_disk_low and the specification promise a return only at or below
the low watermark. -/
theorem c3_wait_for_disk_low_bug :
    (46 : ℚ) ≥ 45 ∧
    waitForDiskLow 45 40 46 [42] = 42 ∧
    ¬ ((42 : ℚ) ≤ 40) := by
  refine ⟨by norm_num, ?_, by norm_num⟩
  rw [waitForDiskLow]
  norm_num
  rw [waitForDiskLow]
  norm_num

/-- C9: a missing or non-numeric MagneticFieldStrength yields the string nan,
not UNKNOWN: astype(str) renders the NaN category as nan before fillna runs,
so the fillna that should produce UNKNOWN is dead code.  The bucketing of
numeric values follows the claimed bin edges with left-closed intervals. -/
theorem c9_field_strength_bug :
    standardFieldStrength none = "nan" ∧
    standardFieldStrength none ≠ "UNKNOWN" ∧
    standardFieldStrength (some (1/2)) = "Low-Field" ∧
    standardFieldStrength (some 1) = "1.5T" ∧
    standardFieldStrength (some (3/2)) = "1.5T" ∧
    standardFieldStrength (some 2) = "3.0T" ∧
    standardFieldStrength (some 3) = "3.0T" ∧
    standardFieldStrength (some 4) = "High-Field" := by
    refine ⟨rfl, by decide, ?_, ?_, ?_, ?_, ?_, ?_⟩ <;> norm_num [standardFieldStrength]

/-- C8: the fourth example of the claim is wrong on the code: the row and
column direction vectors (1,0,0) and (0.5,0.5,0) both lie in the x-y plane,
so their cross product (0,0,0.5) is entirely along z; the dominance test
then fails to fire and get_orientation returns AX, not OBL. -/
theorem c8_oblique_counterexample :
    getOrientation (9/10) [] (some (some [1, 0, 0, 1/2, 1/2, 0])) "" = "AX" ∧
    ("AX" : String) ≠ "OBL" := by
  refine ⟨?_, by decide⟩
  norm_num [getOrientation, cross3, vec3, qAbs, qMax]

/-- C8 (amended): the first three examples of the claim hold and the fourth
returns AX; in general, for a parsed six-element ImageOrientationPatient the
function returns OBL exactly when the squared dominant component of the
row-times-column normal is below the dominance ratio times the squared norm,
and otherwise SAG, COR or AX according to the first index attaining the
dominant absolute component (x, y, z respectively). -/
theorem c8_orientation_amended :
    getOrientation (9/10) [] (some (some [1, 0, 0, 0, 1, 0])) "" = "AX" ∧
    getOrientation (9/10) [] (some (some [0, 1, 0, 0, 0, -1])) "" = "SAG" ∧
    getOrientation (9/10) [] (some (some [1, 0, 0, 0, 0, -1])) "" = "COR" ∧
    getOrientation (9/10) [] (some (some [1, 0, 0, 1/2, 1/2, 0])) "" = "AX" ∧
    ∀ (dom : ℚ) (fb : List (String × List String)) (nm : String) (v : List ℚ),
      v.length = 6 →
      getOrientation dom fb (some (some v)) nm =
        (let n := cross3 (vec3 (v.take 3)) (vec3 (v.drop 3))
         let m := qMax (qMax (qAbs (n 0)) (qAbs (n 1))) (qAbs (n 2))
         if m ^ 2 < dom * (n 0 ^ 2 + n 1 ^ 2 + n 2 ^ 2) then "OBL"
         else if qAbs (n 0) = m then "SAG"
         else if qAbs (n 1) = m then "COR"
         else "AX") := by
  refine ⟨?_, ?_, ?_, ?_, ?_⟩
  · norm_num [getOrientation, cross3, vec3, qAbs, qMax]
  · norm_num [getOrientation, cross3, vec3, qAbs, qMax]
  · norm_num [getOrientation, cross3, vec3, qAbs, qMax]
  · norm_num [getOrientation, cross3, vec3, qAbs, qMax]
  · intro dom fb nm v hv
    simp only [getOrientation, hv, if_true]

/-- C8 witness: the general clause of the amended statement applied to a
concrete parsed orientation. -/
theorem c8_orientation_amended_witness :
    ([0, 1, 0, 0, 0, -1] : List ℚ).length = 6 ∧
    getOrientation (9/10) [] (some (some [0, 1, 0, 0, 0, -1])) "xyz" =
      (let n := cross3 (vec3 (([0, 1, 0, 0, 0, -1] : List ℚ).take 3))
                  (vec3 (([0, 1, 0, 0, 0, -1] : List ℚ).drop 3))
       let m := qMax (qMax (qAbs (n 0)) (qAbs (n 1))) (qAbs (n 2))
       if m ^ 2 < (9/10) * (n 0 ^ 2 + n 1 ^ 2 + n 2 ^ 2) then "OBL"
       else if qAbs (n 0) = m then "SAG"
       else if qAbs (n 1) = m then "COR"
       else "AX") :=
  ⟨by decide, c8_orientation_amended.2.2.2.2 (9/10) [] "xyz" [0, 1, 0, 0, 0, -1] (by decide)⟩

/-- C6: the claim as stated fails, because classify_sequence appends subtype
and motion-correction suffixes after rule A fires: a protocol name containing
both localizer and blade, with b-value 800, is classified LOCALIZER_MC, not
LOCALIZER.  The row satisfies the premises of the claim (name contains
localizer, b-value exceeds the default dwi_b_value_min). -/
theorem c6_localizer_counterexample :
    strContains "localizer blade" "localizer" = true ∧
    oGt (some 800) defaultMRConfig.dwiBValueMin = true ∧
    classifySequence defaultMRConfig
      { protocolNameLower := "localizer blade", bValue := some 800 } = "LOCALIZER_MC" ∧
    ("LOCALIZER_MC" : String) ≠ "LOCALIZER" := by
  refine ⟨by decide, by decide, by decide, by decide⟩

/-- C6 (amended): rule A has strict priority, so every row whose lowered
protocol name contains localizer or whose refinedImageType is LOCALIZER gets
base class LOCALIZER regardless of its b-value; the returned string is
LOCALIZER followed exactly by the subtype suffix and, when the
motion-correction condition holds, the MC suffix. -/
theorem c6_localizer_amended (r : MRRow)
    (h : strContains r.protocolNameLower "localizer" = true ∨ r.refinedImageType = "LOCALIZER") :
    classifySequence defaultMRConfig r =
      "LOCALIZER" ++ getSubtypeSuffix defaultMRConfig r ++
        (if hasMcSuffix defaultMRConfig r then defaultMRConfig.mcSuffix else "") := by
  have hA : ruleA defaultMRConfig r = "LOCALIZER" := by
    rcases h with h | h
    · rw [ruleA]
      simp [strContainsAny, defaultMRConfig, h]
    · rw [ruleA]
      simp [defaultMRConfig, h]
  have hAB : ruleAB defaultMRConfig r = ("LOCALIZER", "UNKNOWN") := by
    rw [ruleAB, hA]
    simp
  have hC : ruleC defaultMRConfig r (ruleAB defaultMRConfig r) = "LOCALIZER" := by
    rw [hAB, ruleC]
    simp
  rw [classifySequence, hC]
  simp only [ne_eq, String.reduceEq, not_false_eq_true, if_true, reduceIte]
  split_ifs <;> simp

/-- C6 witness: the amended statement at a localizer row with b-value 800 and
no suffix trigger, where the returned class is exactly LOCALIZER. -/
theorem c6_localizer_amended_witness :
    strContains "localizer" "localizer" = true ∧
    classifySequence defaultMRConfig { protocolNameLower := "localizer", bValue := some 800 } =
      "LOCALIZER" ++ getSubtypeSuffix defaultMRConfig { protocolNameLower := "localizer", bValue := some 800 } ++
        (if hasMcSuffix defaultMRConfig { protocolNameLower := "localizer", bValue := some 800 }
         then defaultMRConfig.mcSuffix else "") :=
  ⟨by decide, c6_localizer_amended _ (Or.inl (by decide))⟩

/-- C7: the claim fails on the code: in rule C the t2 branch is a separate if
statement and the following dark-fluid/t1/pd/flair/stir/dwi chain can
overwrite its label.  The row with protocol name t2 t1 reaches rule C with
label UNKNOWN and no family, contains t2 and no dark-fluid token, yet is
classified T1_NAME_BASED, which is none of the T2 labels the claim allows. -/
theorem c7_t2_fallthrough_counterexample :
    (ruleAB defaultMRConfig { protocolNameLower := "t2 t1" }).1 = "UNKNOWN" ∧
    (ruleAB defaultMRConfig { protocolNameLower := "t2 t1" }).2 = "UNKNOWN" ∧
    strContains "t2 t1" "t2" = true ∧
    strContains "t2 t1" defaultMRConfig.darkFluidToken = false ∧
    classifySequence defaultMRConfig { protocolNameLower := "t2 t1" } = "T1_NAME_BASED" ∧
    ("T1_NAME_BASED" : String) ≠ "T2_TSE" ∧
    ("T1_NAME_BASED" : String) ≠ "T2_SE" ∧
    ("T1_NAME_BASED" : String) ≠ "T2_NAME_BASED" ∧
    ("T1_NAME_BASED" : String) ≠
      "T2_" ++ (ruleAB defaultMRConfig { protocolNameLower := "t2 t1" }).2 := by
  refine ⟨by decide, by decide, by decide, by decide, by decide, by decide, by decide,
    by decide, by decide⟩

/-- C7 (amended): when rules A and B leave the label UNKNOWN and the lowered
protocol name contains t2 but none of the dark-fluid token, t1, pd, flair,
stir, dwi or diff, rule C yields a T2 base label: T2_TSE, T2_SE,
T2_NAME_BASED, or T2_ with the family rule B computed.  When one of those
later tokens is also present, the subsequent if/elif chain overwrites the
t2 assignment (as the counterexample shows). -/
theorem c7_t2_fallback_amended (r : MRRow)
    (hAB : (ruleAB defaultMRConfig r).1 = "UNKNOWN")
    (ht2 : strContains r.protocolNameLower "t2" = true)
    (hdf : strContains r.protocolNameLower defaultMRConfig.darkFluidToken = false)
    (ht1 : strContains r.protocolNameLower "t1" = false)
    (hpd : strContains r.protocolNameLower "pd" = false)
    (hfl : strContains r.protocolNameLower "flair" = false)
    (hst : strContains r.protocolNameLower "stir" = false)
    (hdw : strContains r.protocolNameLower "dwi" = false)
    (hdi : strContains r.protocolNameLower "diff" = false) :
    ruleC defaultMRConfig r (ruleAB defaultMRConfig r) = "T2_TSE" ∨
    ruleC defaultMRConfig r (ruleAB defaultMRConfig r) = "T2_SE" ∨
    ruleC defaultMRConfig r (ruleAB defaultMRConfig r) = "T2_NAME_BASED" ∨
    ruleC defaultMRConfig r (ruleAB defaultMRConfig r) =
      "T2_" ++ (ruleAB defaultMRConfig r).2 := by
  rw [ruleC, hAB]
  simp only [hdf, ht1, hpd, hfl, hst, hdw, hdi, ht2]
  split_ifs <;> simp_all

/-- C7 witness: the amended statement at a row whose name is ax t2 tse. -/
theorem c7_t2_fallback_amended_witness :
    strContains "ax t2 tse" "t2" = true ∧
    (ruleC defaultMRConfig { protocolNameLower := "ax t2 tse" }
        (ruleAB defaultMRConfig { protocolNameLower := "ax t2 tse" }) = "T2_TSE" ∨
     ruleC defaultMRConfig { protocolNameLower := "ax t2 tse" }
        (ruleAB defaultMRConfig { protocolNameLower := "ax t2 tse" }) = "T2_SE" ∨
     ruleC defaultMRConfig { protocolNameLower := "ax t2 tse" }
        (ruleAB defaultMRConfig { protocolNameLower := "ax t2 tse" }) = "T2_NAME_BASED" ∨
     ruleC defaultMRConfig { protocolNameLower := "ax t2 tse" }
        (ruleAB defaultMRConfig { protocolNameLower := "ax t2 tse" }) =
       "T2_" ++ (ruleAB defaultMRConfig { protocolNameLower := "ax t2 tse" }).2) :=
  ⟨by decide, c7_t2_fallback_amended _ (by decide) (by decide) (by decide) (by decide)
    (by decide) (by decide) (by decide) (by decide) (by decide)⟩

/-- C4: the claim fails on the code: in process_mri_dataframe the
isContrastEnhanced column that analyze_dynamic_series computed (the
dynamic-group-aware conjunction) is overwritten before enhancement
propagation by the simpler protocol-prefix formula of lines 770-774.  For a
single-row study whose protocol name is dyn post scan with agent gadolinium
and class T1_GRE, the analyzer conjunction is true (the name matches the
contrast regex), yet the column held by the frame between stage four and
stage five is false (the name does not start with t1). -/
theorem c4_contrast_overwrite_counterexample :
    (analyzeDynamicSeries [] 1
        [{ protocolNameLower := "dyn post scan", contrastBolusAgent := some "gadolinium",
           sequenceClass := "T1_GRE" }]).get? 0 = some (none, "", true) ∧
    (stage4IsContrastEnhanced
        [{ protocolNameLower := "dyn post scan", contrastBolusAgent := some "gadolinium",
           sequenceClass := "T1_GRE" }]).get? 0 = some false ∧
    (true : Bool) ≠ false := by
  refine ⟨by decide, by decide, by decide⟩

/-- C4 (amended): at the end of analyze_dynamic_series every row carries
exactly the claimed conjunction, evaluated at the dynamicPhase the stage
computed; the column of the frame before enhancement propagation, however,
is the overwrite of lines 770-774: protocol starts with t1, agent non-null,
agent not containing the token no. -/
theorem c4_contrast_amended (excl : List String) (startId : Nat) (rows : List DynRow)
    (j : Nat) (r : DynRow) (hj : rows.get? j = some r) :
    (∃ g ph, (analyzeDynamicSeries excl startId rows).get? j =
        some (g, ph,
          ((strStartsWith ph "POST" || strContainsAny r.protocolNameLower contrastTokens)
            && r.contrastBolusAgent.isSome
            && !(strContains (strLower (astypeStr r.contrastBolusAgent)) "no")
            && !(strContainsAny (strLower r.sequenceClass) ["dwi", "t2", "localizer"])))) ∧
    (stage4IsContrastEnhanced rows).get? j =
      some (strStartsWith r.protocolNameLower "t1"
        && r.contrastBolusAgent.isSome
        && !(match r.contrastBolusAgent with
             | none => true
             | some s => strContains (strLower s) "no")) := by
  constructor
  · refine ⟨(dynAssign excl startId rows (j, r)).1, (dynAssign excl startId rows (j, r)).2, ?_⟩
    rw [analyzeDynamicSeries, List.get?_map, List.get?_enum, hj]
    rfl
  · rw [stage4IsContrastEnhanced, List.get?_map, hj]
    rfl

/-- C4 witness: the amended statement at the single-row study of the
counterexample. -/
theorem c4_contrast_amended_witness :
    (∃ g ph, (analyzeDynamicSeries [] 1
        [{ protocolNameLower := "dyn post scan", contrastBolusAgent := some "gadolinium",
           sequenceClass := "T1_GRE" }]).get? 0 =
        some (g, ph,
          ((strStartsWith ph "POST" || strContainsAny "dyn post scan" contrastTokens)
            && (some "gadolinium" : Option String).isSome
            && !(strContains (strLower (astypeStr (some "gadolinium"))) "no")
            && !(strContainsAny (strLower "T1_GRE") ["dwi", "t2", "localizer"])))) ∧
    (stage4IsContrastEnhanced
        [{ protocolNameLower := "dyn post scan", contrastBolusAgent := some "gadolinium",
           sequenceClass := "T1_GRE" }]).get? 0 =
      some (strStartsWith "dyn post scan" "t1"
        && (some "gadolinium" : Option String).isSome
        && !(strContains (strLower "gadolinium") "no")) :=
  c4_contrast_amended [] 1
    [{ protocolNameLower := "dyn post scan", contrastBolusAgent := some "gadolinium",
       sequenceClass := "T1_GRE" }] 0 _ rfl

theorem seqOpt_none : ∀ {l : List (Option ℚ)}, none ∈ l → seqOpt l = none := by
  intro l h
  induction l with
  | nil => cases h
  | cons a rest ih =>
      cases a with
      | none => rfl
      | some x =>
          have hr : none ∈ rest := by
            rcases List.mem_cons.1 h with h1 | h1
            · cases h1
            · exact h1
          rw [seqOpt, ih hr]
          rfl

/-- C10: build_affine_from_dicom is total in the embedding, and whenever
ImageOrientationPatient or ImagePositionPatient is missing, or any accessed
value of the orientation, position or pixel-spacing lists fails to parse,
the function returns the 4 by 4 identity (the except branch of the
source). -/
theorem c10_affine_total (iop ipp ps : Option (List (Option ℚ))) (ss : ℚ)
    (sc : Option (Fin 3 → ℚ))
    (h : iop = none ∨ ipp = none ∨
      (∃ l, iop = some l ∧ none ∈ l.take 3) ∨
      (∃ l, iop = some l ∧ none ∈ (l.drop 3).take 3) ∨
      (∃ l, ipp = some l ∧ none ∈ l) ∨
      (∃ l, ps = some l ∧ none ∈ l.take 2)) :
    buildAffineFromDicom iop ipp ps ss sc = 1 := by
  rcases h with rfl | rfl | ⟨l, rfl, hm⟩ | ⟨l, rfl, hm⟩ | ⟨l, rfl, hm⟩ | ⟨l, rfl, hm⟩
  · rfl
  · cases iop <;> rfl
  · cases ipp with
    | none => rfl
    | some ippl => simp [buildAffineFromDicom, seqOpt_none hm]
  · cases ipp with
    | none => rfl
    | some ippl => simp [buildAffineFromDicom, seqOpt_none hm]
  · cases iop with
    | none => rfl
    | some iopl => simp [buildAffineFromDicom, seqOpt_none hm]
  · cases iop with
    | none => rfl
    | some iopl =>
        cases ipp with
        | none => rfl
        | some ippl =>
            simp only [buildAffineFromDicom, Option.getD_some, seqOpt_none hm]
            cases seqOpt (iopl.take 3) <;> cases seqOpt ((iopl.drop 3).take 3) <;>
              cases seqOpt ippl <;> simp

/-- C10 witness: a missing orientation yields the identity affine. -/
theorem c10_affine_total_witness :
    buildAffineFromDicom none (some [some 1, some 2, some 3]) none 1 none = 1 :=
  c10_affine_total none (some [some 1, some 2, some 3]) none 1 none (Or.inl rfl)

theorem d2nIndWritten_nifti {outName : String} {runs : List ToolFileRun} :
    ∀ f ∈ d2nIndWritten outName runs, isNiftiFile f = true := by
  intro f hf
  rcases List.mem_filterMap.1 hf with ⟨p, _, hps⟩
  by_cases hw : p.2.outWritten = true
  · rw [if_pos hw] at hps
    cases hps
    rfl
  · rw [if_neg hw] at hps
    cases hps

theorem enum_snd_mem {α : Type} {p : Nat × α} {l : List α} (h : p ∈ l.enum) : p.2 ∈ l := by
  have := List.mem_enum_iff_get?.1 h
  exact List.get?_mem this

theorem d2nInd_written_eq_counted {outName : String} {runs : List ToolFileRun}
    (hc : ∀ t ∈ runs, t.rcZero = false → t.outWritten = false) :
    d2nIndWritten outName runs = d2nIndCounted outName runs := by
  rw [d2nIndWritten, d2nIndCounted]
  apply List.filterMap_congr
  intro p hp
  by_cases h1 : p.2.rcZero = true
  · simp [h1]
  · have h2 : p.2.outWritten = false :=
      hc p.2 (enum_snd_mem hp) (by simpa using h1)
    simp [h2]

theorem convertOrKeep_d2nIndividual (dcms : List String) (outName : String)
    (runs : List ToolFileRun) (hne : dcms ≠ [])
    (hc : ∀ t ∈ runs, t.rcZero = false → t.outWritten = false) :
    ((∀ n ∈ dcms, FsFile.dcm n ∉ convertWithDcm2niixIndividual dcms outName runs) ↔
      (∃ f ∈ convertWithDcm2niixIndividual dcms outName runs, isNiftiFile f = true)) ∧
    ((¬ ∃ f ∈ convertWithDcm2niixIndividual dcms outName runs, isNiftiFile f = true) →
      convertWithDcm2niixIndividual dcms outName runs = dcms.map FsFile.dcm) := by
  have heq : d2nIndWritten outName runs = d2nIndCounted outName runs :=
    d2nInd_written_eq_counted hc
  rw [convertWithDcm2niixIndividual]
  by_cases hcnt : (d2nIndCounted outName runs).length > 0
  · rw [if_pos hcnt]
    have hL : ∀ n ∈ dcms, FsFile.dcm n ∉ d2nIndWritten outName runs := by
      intro n _ hcon
      have := d2nIndWritten_nifti _ hcon
      simp [isNiftiFile] at this
    have hR : ∃ f ∈ d2nIndWritten outName runs, isNiftiFile f = true := by
      have hnn : d2nIndWritten outName runs ≠ [] := by
        rw [heq]
        exact List.ne_nil_of_length_pos hcnt
      obtain ⟨f, hf⟩ := List.exists_mem_of_ne_nil _ hnn
      exact ⟨f, hf, d2nIndWritten_nifti f hf⟩
    exact ⟨iff_of_true hL hR, fun hno => absurd hR hno⟩
  · rw [if_neg hcnt]
    have hwempty : d2nIndWritten outName runs = [] := by
      rw [heq]
      exact List.length_eq_zero.1 (by omega)
    rw [hwempty, List.append_nil]
    have hL : ¬ (∀ n ∈ dcms, FsFile.dcm n ∉ dcms.map FsFile.dcm) := by
      obtain ⟨n, hn⟩ := List.exists_mem_of_ne_nil dcms hne
      intro hall
      exact hall n hn (List.mem_map_of_mem _ hn)
    have hR : ¬ ∃ f ∈ dcms.map FsFile.dcm, isNiftiFile f = true := by
      rintro ⟨f, hf, hnf⟩
      rcases List.mem_map.1 hf with ⟨n, _, rfl⟩
      simp [isNiftiFile] at hnf
    exact ⟨iff_of_false hL hR, fun _ => rfl⟩

theorem convertOrKeep_d2nSeries (dcms : List String) (run : SeriesToolRun) (hne : dcms ≠ [])
    (hc : run.rcZero = false → run.created = []) :
    ((∀ n ∈ dcms, FsFile.dcm n ∉ convertWithDcm2niixSeries dcms run) ↔
      (∃ f ∈ convertWithDcm2niixSeries dcms run, isNiftiFile f = true)) ∧
    ((¬ ∃ f ∈ convertWithDcm2niixSeries dcms run, isNiftiFile f = true) →
      convertWithDcm2niixSeries dcms run = dcms.map FsFile.dcm) := by
  have hfilter : (dcms.map FsFile.dcm ++ run.created.map FsFile.nifti).filter isNiftiFile =
      run.created.map FsFile.nifti := by
    rw [List.filter_append]
    have h1 : (dcms.map FsFile.dcm).filter isNiftiFile = [] := by
      rw [List.filter_eq_nil_iff]
      intro f hf
      rcases List.mem_map.1 hf with ⟨n, _, rfl⟩
      simp [isNiftiFile]
    have h2 : (run.created.map FsFile.nifti).filter isNiftiFile = run.created.map FsFile.nifti := by
      rw [List.filter_eq_self]
      intro f hf
      rcases List.mem_map.1 hf with ⟨n, _, rfl⟩
      rfl
    rw [h1, h2, List.nil_append]
  rw [convertWithDcm2niixSeries]
  by_cases hcr : run.created = []
  · have hcond : (run.rcZero && !((dcms.map FsFile.dcm ++ run.created.map FsFile.nifti).filter isNiftiFile).isEmpty) = false := by
      rw [hfilter, hcr]
      simp
    rw [hcond]
    simp only [Bool.false_eq_true, if_false]
    rw [hcr]
    simp only [List.map_nil, List.append_nil]
    have hL : ¬ (∀ n ∈ dcms, FsFile.dcm n ∉ dcms.map FsFile.dcm) := by
      obtain ⟨n, hn⟩ := List.exists_mem_of_ne_nil dcms hne
      intro hall
      exact hall n hn (List.mem_map_of_mem _ hn)
    have hR : ¬ ∃ f ∈ dcms.map FsFile.dcm, isNiftiFile f = true := by
      rintro ⟨f, hf, hnf⟩
      rcases List.mem_map.1 hf with ⟨n, _, rfl⟩
      simp [isNiftiFile] at hnf
    exact ⟨iff_of_false hL hR, fun _ => by trivial⟩
  · have hrc : run.rcZero = true := by
      by_contra h
      exact hcr (hc (by simpa using h))
    have hmapne : run.created.map FsFile.nifti ≠ [] := by
      intro h
      exact hcr (List.map_eq_nil_iff.1 h)
    have hcond : (run.rcZero && !((dcms.map FsFile.dcm ++ run.created.map FsFile.nifti).filter isNiftiFile).isEmpty) = true := by
      rw [hfilter, hrc]
      cases hx : run.created.map FsFile.nifti with
      | nil => exact absurd hx hmapne
      | cons a t => rfl
    rw [hcond]
    simp only [if_true]
    have hrem : (dcms.map FsFile.dcm ++ run.created.map FsFile.nifti).filter (fun f => !isDcmFile f) =
        run.created.map FsFile.nifti := by
      rw [List.filter_append]
      have h1 : (dcms.map FsFile.dcm).filter (fun f => !isDcmFile f) = [] := by
        rw [List.filter_eq_nil_iff]
        intro f hf
        rcases List.mem_map.1 hf with ⟨n, _, rfl⟩
        simp [isDcmFile]
      have h2 : (run.created.map FsFile.nifti).filter (fun f => !isDcmFile f) =
          run.created.map FsFile.nifti := by
        rw [List.filter_eq_self]
        intro f hf
        rcases List.mem_map.1 hf with ⟨n, _, rfl⟩
        rfl
      rw [h1, h2, List.nil_append]
    rw [hrem]
    have hL : ∀ n ∈ dcms, FsFile.dcm n ∉ run.created.map FsFile.nifti := by
      intro n _ hcon
      rcases List.mem_map.1 hcon with ⟨m, _, hm⟩
      cases hm
    have hR : ∃ f ∈ run.created.map FsFile.nifti, isNiftiFile f = true := by
      obtain ⟨f, hf⟩ := List.exists_mem_of_ne_nil _ hmapne
      refine ⟨f, hf, ?_⟩
      rcases List.mem_map.1 hf with ⟨n, _, rfl⟩
      rfl
    exact ⟨iff_of_true hL hR, fun hno => absurd hR hno⟩

theorem pyLibsInd_outs_nifti {dcms : List String} {outName : String} {oks : List Bool} :
    ∀ f ∈ (dcms.zip oks).enum.filterMap (fun p =>
      if p.2.2 then some (FsFile.nifti (d2nIndOutName outName p.1)) else none),
      isNiftiFile f = true := by
  intro f hf
  rcases List.mem_filterMap.1 hf with ⟨p, _, hps⟩
  by_cases hw : p.2.2 = true
  · rw [if_pos hw] at hps
    cases hps
    rfl
  · rw [if_neg hw] at hps
    cases hps

theorem convertOrKeep_pyLibsIndividual (dcms : List String) (outName : String)
    (oks : List Bool) (hne : dcms ≠ []) :
    ((∀ n ∈ dcms, FsFile.dcm n ∉ convertWithPyLibsIndividual dcms outName oks) ↔
      (∃ f ∈ convertWithPyLibsIndividual dcms outName oks, isNiftiFile f = true)) ∧
    ((¬ ∃ f ∈ convertWithPyLibsIndividual dcms outName oks, isNiftiFile f = true) →
      convertWithPyLibsIndividual dcms outName oks = dcms.map FsFile.dcm) := by
  rw [convertWithPyLibsIndividual]
  by_cases hcnt : ((dcms.zip oks).enum.filterMap (fun p =>
      if p.2.2 then some (FsFile.nifti (d2nIndOutName outName p.1)) else none)).length > 0
  · rw [if_pos hcnt]
    have hL : ∀ n ∈ dcms, FsFile.dcm n ∉ (dcms.zip oks).enum.filterMap (fun p =>
        if p.2.2 then some (FsFile.nifti (d2nIndOutName outName p.1)) else none) := by
      intro n _ hcon
      have := pyLibsInd_outs_nifti _ hcon
      simp [isNiftiFile] at this
    have hR : ∃ f ∈ (dcms.zip oks).enum.filterMap (fun p =>
        if p.2.2 then some (FsFile.nifti (d2nIndOutName outName p.1)) else none),
        isNiftiFile f = true := by
      obtain ⟨f, hf⟩ := List.exists_mem_of_ne_nil _ (List.ne_nil_of_length_pos hcnt)
      exact ⟨f, hf, pyLibsInd_outs_nifti f hf⟩
    exact ⟨iff_of_true hL hR, fun hno => absurd hR hno⟩
  · rw [if_neg hcnt]
    have hempty : (dcms.zip oks).enum.filterMap (fun p =>
        if p.2.2 then some (FsFile.nifti (d2nIndOutName outName p.1)) else none) = [] :=
      List.length_eq_zero.1 (by omega)
    rw [hempty, List.append_nil]
    have hL : ¬ (∀ n ∈ dcms, FsFile.dcm n ∉ dcms.map FsFile.dcm) := by
      obtain ⟨n, hn⟩ := List.exists_mem_of_ne_nil dcms hne
      intro hall
      exact hall n hn (List.mem_map_of_mem _ hn)
    have hR : ¬ ∃ f ∈ dcms.map FsFile.dcm, isNiftiFile f = true := by
      rintro ⟨f, hf, hnf⟩
      rcases List.mem_map.1 hf with ⟨n, _, rfl⟩
      simp [isNiftiFile] at hnf
    exact ⟨iff_of_false hL hR, fun _ => rfl⟩

theorem convertOrKeep_dirUnchanged (dcms : List String) (hne : dcms ≠ []) :
    (¬ (∀ n ∈ dcms, FsFile.dcm n ∉ dcms.map FsFile.dcm)) ∧
    (¬ ∃ f ∈ dcms.map FsFile.dcm, isNiftiFile f = true) := by
  constructor
  · obtain ⟨n, hn⟩ := List.exists_mem_of_ne_nil dcms hne
    intro hall
    exact hall n hn (List.mem_map_of_mem _ hn)
  · rintro ⟨f, hf, hnf⟩
    rcases List.mem_map.1 hf with ⟨n, _, rfl⟩
    simp [isNiftiFile] at hnf

theorem convertOrKeep_pyLibsSeries (dcms : List String) (outName : String)
    (env : PySeriesEnv) (hne : dcms ≠ []) :
    ((∀ n ∈ dcms, FsFile.dcm n ∉ convertWithPyLibsSeries dcms outName env) ↔
      (∃ f ∈ convertWithPyLibsSeries dcms outName env, isNiftiFile f = true)) ∧
    ((¬ ∃ f ∈ convertWithPyLibsSeries dcms outName env, isNiftiFile f = true) →
      convertWithPyLibsSeries dcms outName env = dcms.map FsFile.dcm) := by
  have hout : ∀ (l : List String),
      (∀ n ∈ l, FsFile.dcm n ∉ [FsFile.nifti (outName ++ ".nii.gz")]) ∧
      (∃ f ∈ [FsFile.nifti (outName ++ ".nii.gz")], isNiftiFile f = true) := by
    intro l
    constructor
    · intro n _ hcon
      rcases List.mem_singleton.1 hcon with h
      cases h
    · exact ⟨FsFile.nifti (outName ++ ".nii.gz"), List.mem_singleton.2 rfl, rfl⟩
  cases dcms with
  | nil => exact absurd rfl hne
  | cons d rest =>
      cases rest with
      | nil =>
          rw [convertWithPyLibsSeries]
          by_cases hok : (env.hasPixelSingle && env.saveOk) = true
          · rw [if_pos hok]
            obtain ⟨hL, hR⟩ := hout [d]
            exact ⟨iff_of_true hL hR, fun hno => absurd hR hno⟩
          · rw [if_neg hok]
            obtain ⟨hL, hR⟩ := convertOrKeep_dirUnchanged [d] (by simp)
            exact ⟨iff_of_false hL hR, fun _ => rfl⟩
      | cons d2 rest2 =>
          have hdef : convertWithPyLibsSeries (d :: d2 :: rest2) outName env =
              (if (((d :: d2 :: rest2).zip env.slices).filter (fun p => p.2.parseOk)).isEmpty then
                (d :: d2 :: rest2).map FsFile.dcm
              else if ((((d :: d2 :: rest2).zip env.slices).filter (fun p => p.2.parseOk)).filter
                  (fun p => p.2.hasPixel)).isEmpty then
                (d :: d2 :: rest2).map FsFile.dcm
              else if env.saveOk then [FsFile.nifti (outName ++ ".nii.gz")]
              else (d :: d2 :: rest2).map FsFile.dcm) := rfl
          rw [hdef]
          by_cases hp : ((d :: d2 :: rest2).zip env.slices).filter (fun p => p.2.parseOk) = []
          · have hcond : (((d :: d2 :: rest2).zip env.slices).filter (fun p => p.2.parseOk)).isEmpty = true := by
              rw [hp]; rfl
            rw [hcond, if_pos rfl]
            obtain ⟨hL, hR⟩ := convertOrKeep_dirUnchanged (d :: d2 :: rest2) (by simp)
            exact ⟨iff_of_false hL hR, fun _ => rfl⟩
          · have hpne : (((d :: d2 :: rest2).zip env.slices).filter (fun p => p.2.parseOk)).isEmpty = false := by
              cases hx : ((d :: d2 :: rest2).zip env.slices).filter (fun p => p.2.parseOk) with
              | nil => exact absurd hx hp
              | cons a t => rfl
            rw [hpne]
            simp only [Bool.false_eq_true, if_false]
            by_cases hw : (((d :: d2 :: rest2).zip env.slices).filter (fun p => p.2.parseOk)).filter
                (fun p => p.2.hasPixel) = []
            · have hcondw : ((((d :: d2 :: rest2).zip env.slices).filter (fun p => p.2.parseOk)).filter
                  (fun p => p.2.hasPixel)).isEmpty = true := by
                rw [hw]; rfl
              rw [hcondw, if_pos rfl]
              obtain ⟨hL, hR⟩ := convertOrKeep_dirUnchanged (d :: d2 :: rest2) (by simp)
              exact ⟨iff_of_false hL hR, fun _ => rfl⟩
            · have hwne : ((((d :: d2 :: rest2).zip env.slices).filter (fun p => p.2.parseOk)).filter
                  (fun p => p.2.hasPixel)).isEmpty = false := by
                cases hx : (((d :: d2 :: rest2).zip env.slices).filter (fun p => p.2.parseOk)).filter
                    (fun p => p.2.hasPixel) with
                | nil => exact absurd hx hw
                | cons a t => rfl
              rw [hwne]
              simp only [Bool.false_eq_true, if_false]
              by_cases hs : env.saveOk = true
              · rw [if_pos hs]
                obtain ⟨hL, hR⟩ := hout (d :: d2 :: rest2)
                exact ⟨iff_of_true hL hR, fun hno => absurd hR hno⟩
              · rw [if_neg hs]
                obtain ⟨hL, hR⟩ := convertOrKeep_dirUnchanged (d :: d2 :: rest2) (by simp)
                exact ⟨iff_of_false hL hR, fun _ => rfl⟩

/-- C1: convert-or-keep, across the four conversion paths.  In every path
the original .dcm files are all removed exactly when at least one NIfTI
output is present in the directory afterwards, and a conversion that fails
entirely leaves the directory exactly as it was.  The dcm2niix paths carry
the tool contract stated in the specification (a failing invocation leaves
no output); without it the code cannot observe which files the tool wrote. -/
theorem c1_convert_or_keep :
    (∀ (dcms : List String) (outName : String) (runs : List ToolFileRun),
      dcms ≠ [] → (∀ t ∈ runs, t.rcZero = false → t.outWritten = false) →
      ((∀ n ∈ dcms, FsFile.dcm n ∉ convertWithDcm2niixIndividual dcms outName runs) ↔
        (∃ f ∈ convertWithDcm2niixIndividual dcms outName runs, isNiftiFile f = true)) ∧
      ((¬ ∃ f ∈ convertWithDcm2niixIndividual dcms outName runs, isNiftiFile f = true) →
        convertWithDcm2niixIndividual dcms outName runs = dcms.map FsFile.dcm)) ∧
    (∀ (dcms : List String) (run : SeriesToolRun),
      dcms ≠ [] → (run.rcZero = false → run.created = []) →
      ((∀ n ∈ dcms, FsFile.dcm n ∉ convertWithDcm2niixSeries dcms run) ↔
        (∃ f ∈ convertWithDcm2niixSeries dcms run, isNiftiFile f = true)) ∧
      ((¬ ∃ f ∈ convertWithDcm2niixSeries dcms run, isNiftiFile f = true) →
        convertWithDcm2niixSeries dcms run = dcms.map FsFile.dcm)) ∧
    (∀ (dcms : List String) (outName : String) (oks : List Bool),
      dcms ≠ [] →
      ((∀ n ∈ dcms, FsFile.dcm n ∉ convertWithPyLibsIndividual dcms outName oks) ↔
        (∃ f ∈ convertWithPyLibsIndividual dcms outName oks, isNiftiFile f = true)) ∧
      ((¬ ∃ f ∈ convertWithPyLibsIndividual dcms outName oks, isNiftiFile f = true) →
        convertWithPyLibsIndividual dcms outName oks = dcms.map FsFile.dcm)) ∧
    (∀ (dcms : List String) (outName : String) (env : PySeriesEnv),
      dcms ≠ [] →
      ((∀ n ∈ dcms, FsFile.dcm n ∉ convertWithPyLibsSeries dcms outName env) ↔
        (∃ f ∈ convertWithPyLibsSeries dcms outName env, isNiftiFile f = true)) ∧
      ((¬ ∃ f ∈ convertWithPyLibsSeries dcms outName env, isNiftiFile f = true) →
        convertWithPyLibsSeries dcms outName env = dcms.map FsFile.dcm)) :=
  ⟨convertOrKeep_d2nIndividual, convertOrKeep_d2nSeries,
   convertOrKeep_pyLibsIndividual, convertOrKeep_pyLibsSeries⟩

/-- C1 witness: each path of the convert-or-keep statement applied to a
one-file series with a succeeding environment. -/
theorem c1_convert_or_keep_witness :
    (((∀ n ∈ ["a.dcm"], FsFile.dcm n ∉ convertWithDcm2niixIndividual ["a.dcm"] "ser"
        [{ rcZero := true, outWritten := true }]) ↔
      (∃ f ∈ convertWithDcm2niixIndividual ["a.dcm"] "ser"
        [{ rcZero := true, outWritten := true }], isNiftiFile f = true)) ∧
     ((¬ ∃ f ∈ convertWithDcm2niixIndividual ["a.dcm"] "ser"
        [{ rcZero := true, outWritten := true }], isNiftiFile f = true) →
      convertWithDcm2niixIndividual ["a.dcm"] "ser"
        [{ rcZero := true, outWritten := true }] = ["a.dcm"].map FsFile.dcm)) ∧
    (((∀ n ∈ ["a.dcm"], FsFile.dcm n ∉ convertWithDcm2niixSeries ["a.dcm"]
        { rcZero := false, created := [] }) ↔
      (∃ f ∈ convertWithDcm2niixSeries ["a.dcm"] { rcZero := false, created := [] },
        isNiftiFile f = true)) ∧
     ((¬ ∃ f ∈ convertWithDcm2niixSeries ["a.dcm"] { rcZero := false, created := [] },
        isNiftiFile f = true) →
      convertWithDcm2niixSeries ["a.dcm"] { rcZero := false, created := [] } =
        ["a.dcm"].map FsFile.dcm)) ∧
    (((∀ n ∈ ["a.dcm"], FsFile.dcm n ∉ convertWithPyLibsIndividual ["a.dcm"] "ser" [true]) ↔
      (∃ f ∈ convertWithPyLibsIndividual ["a.dcm"] "ser" [true], isNiftiFile f = true)) ∧
     ((¬ ∃ f ∈ convertWithPyLibsIndividual ["a.dcm"] "ser" [true], isNiftiFile f = true) →
      convertWithPyLibsIndividual ["a.dcm"] "ser" [true] = ["a.dcm"].map FsFile.dcm)) ∧
    (((∀ n ∈ ["a.dcm"], FsFile.dcm n ∉ convertWithPyLibsSeries ["a.dcm"] "ser"
        { hasPixelSingle := true, saveOk := true, slices := [] }) ↔
      (∃ f ∈ convertWithPyLibsSeries ["a.dcm"] "ser"
        { hasPixelSingle := true, saveOk := true, slices := [] }, isNiftiFile f = true)) ∧
     ((¬ ∃ f ∈ convertWithPyLibsSeries ["a.dcm"] "ser"
        { hasPixelSingle := true, saveOk := true, slices := [] }, isNiftiFile f = true) →
      convertWithPyLibsSeries ["a.dcm"] "ser"
        { hasPixelSingle := true, saveOk := true, slices := [] } = ["a.dcm"].map FsFile.dcm)) :=
  ⟨c1_convert_or_keep.1 ["a.dcm"] "ser" [{ rcZero := true, outWritten := true }]
      (by decide) (by decide),
   c1_convert_or_keep.2.1 ["a.dcm"] { rcZero := false, created := [] } (by decide) (by decide),
   c1_convert_or_keep.2.2.1 ["a.dcm"] "ser" [true] (by decide),
   c1_convert_or_keep.2.2.2 ["a.dcm"] "ser"
      { hasPixelSingle := true, saveOk := true, slices := [] } (by decide)⟩

/-!
## Lemmas for the dynamic-grouping claim
-/

theorem enum_nodup {α : Type} (l : List α) : l.enum.Nodup :=
  (List.nodup_enum_map_fst l).of_map _

theorem studyEntries_nodup (excl : List String) (rows : List DynRow) :
    (studyEntries excl rows).Nodup :=
  (enum_nodup rows).filter _

theorem studyMembers_nodup (excl : List String) (rows : List DynRow) (fp : String) :
    (studyMembers excl rows fp).Nodup :=
  (studyEntries_nodup excl rows).filter _

theorem processedFps_nodup (excl : List String) (rows : List DynRow) :
    (processedFps excl rows).Nodup :=
  (List.nodup_dedup _).filter _

theorem mem_studyMembers {excl : List String} {rows : List DynRow} {fp : String}
    {p : Nat × DynRow} :
    p ∈ studyMembers excl rows fp ↔
      p ∈ rows.enum ∧ dynEligible excl p.2 = true ∧ dynFingerprint p.2 = fp := by
  rw [studyMembers, studyEntries]
  simp only [List.mem_filter, Bool.and_eq_true, beq_iff_eq, and_assoc]
  try tauto

theorem processedFps_mem (excl : List String) (rows : List DynRow) (fp : String)
    (hc : 1 < (studyMembers excl rows fp).length)
    (ht : ∃ p ∈ studyMembers excl rows fp, p.2.seriesTime.isSome = true) :
    fp ∈ processedFps excl rows := by
  rw [processedFps]
  rw [List.mem_filter]
  constructor
  · rw [List.mem_dedup, List.mem_map]
    have hne : studyMembers excl rows fp ≠ [] := by
      intro h
      rw [h] at hc
      simp at hc
    obtain ⟨p, hp⟩ := List.exists_mem_of_ne_nil _ hne
    obtain ⟨hpe, hfpp⟩ := List.mem_filter.1 hp
    exact ⟨p, hpe, by simpa using hfpp⟩
  · rw [Bool.and_eq_true]
    constructor
    · simpa using hc
    · rw [List.any_eq_true]
      obtain ⟨p, hp, hs⟩ := ht
      exact ⟨p, hp, hs⟩

theorem dynGroupId_inj {excl : List String} {rows : List DynRow} {startId : Nat}
    {fp1 fp2 : String} (h1 : fp1 ∈ processedFps excl rows)
    (h2 : fp2 ∈ processedFps excl rows) (hne : fp1 ≠ fp2) :
    dynGroupId excl rows startId fp1 ≠ dynGroupId excl rows startId fp2 := by
  rw [dynGroupId, dynGroupId]
  intro h
  have hidx : (processedFps excl rows).indexOf fp1 = (processedFps excl rows).indexOf fp2 := by
    omega
  exact hne ((List.indexOf_inj h1 h2).1 hidx)

theorem timeLe_trans : ∀ a b c : Nat × DynRow,
    timeLe a b = true → timeLe b c = true → timeLe a c = true := by
  intro a b c hab hbc
  rcases ha : a.2.seriesTime with _ | ta <;> rcases hb : b.2.seriesTime with _ | tb <;>
    rcases hcc : c.2.seriesTime with _ | tc <;> simp [timeLe, ha, hb, hcc] at * <;>
    try exact le_trans hab hbc

theorem timeLe_total : ∀ a b : Nat × DynRow, (timeLe a b || timeLe b a) = true := by
  intro a b
  rcases ha : a.2.seriesTime with _ | ta <;> rcases hb : b.2.seriesTime with _ | tb <;>
    simp [timeLe, ha, hb]
  exact le_total ta tb

theorem timeLe_refl : ∀ a : Nat × DynRow, timeLe a a = true := by
  intro a
  rcases ha : a.2.seriesTime with _ | ta <;> simp [timeLe, ha]

theorem dynAssign_eq (excl : List String) (startId : Nat) (rows : List DynRow)
    (p : Nat × DynRow) :
    dynAssign excl startId rows p =
      if dynEligible excl p.2 && (processedFps excl rows).contains (dynFingerprint p.2) then
        (some (dynGroupId excl rows startId (dynFingerprint p.2)),
         dynPhase excl rows (dynFingerprint p.2) p)
      else (none, "") := rfl

theorem nodup_indexOf_get {l : List (Nat × DynRow)} (h : l.Nodup)
    (j : Fin l.length) : l.indexOf (l.get j) = (j : ℕ) := by
  induction l with
  | nil => exact absurd j.isLt (by simp)
  | cons a t ih =>
    rcases j with ⟨jv, hjv⟩
    cases jv with
    | zero =>
      simp [List.indexOf_cons]
    | succ k =>
      have hk : k < t.length := Nat.lt_of_succ_lt_succ hjv
      have hmem : t.get ⟨k, hk⟩ ∈ t := t.get_mem k hk
      have hna : a ∉ t := (List.nodup_cons.1 h).1
      have hne2 : a ≠ t.get ⟨k, hk⟩ := fun he => hna (he ▸ hmem)
      have hbe : (a == t.get ⟨k, hk⟩) = false := beq_eq_false_iff_ne.2 hne2
      have iht := ih (List.nodup_cons.1 h).2 ⟨k, hk⟩
      simp only [List.get_eq_getElem] at hbe iht
      simp [List.indexOf_cons, hbe, iht]

/-- C5: dynamic grouping.  For a study whose eligible rows contain a
fingerprint shared by more than one row, with a valid SeriesTime among them:
the fingerprint forms a processed dynamic group; the output column equals
the per-row assignment; exactly the rows bearing the fingerprint receive its
fresh group id, and the id differs from the id of every other processed
fingerprint; the sorted member list is ordered by ascending SeriesTime
(missing times last) and is a permutation of the members; the member at
sorted position zero receives phase PRE and the member at sorted position j
receives POST_j; and the first sorted member has a valid SeriesTime that is
at most the SeriesTime of every member that has one. -/
theorem c5_dynamic_grouping (excl : List String) (startId : Nat) (rows : List DynRow)
    (fp : String)
    (hc : 1 < (studyMembers excl rows fp).length)
    (ht : ∃ p ∈ studyMembers excl rows fp, p.2.seriesTime.isSome = true) :
    fp ∈ processedFps excl rows ∧
    (∀ p ∈ rows.enum,
      (analyzeStudyDyn excl startId rows).get? p.1 = some (dynAssign excl startId rows p)) ∧
    (∀ p ∈ rows.enum,
      ((dynAssign excl startId rows p).1 = some (dynGroupId excl rows startId fp) ↔
        p ∈ studyMembers excl rows fp)) ∧
    (∀ fp2 ∈ processedFps excl rows, fp2 ≠ fp →
      dynGroupId excl rows startId fp2 ≠ dynGroupId excl rows startId fp) ∧
    ((studyMembers excl rows fp).mergeSort timeLe).Pairwise (fun a b => timeLe a b = true) ∧
    ((studyMembers excl rows fp).mergeSort timeLe).Perm (studyMembers excl rows fp) ∧
    (∀ (j : Nat) (hj : j < ((studyMembers excl rows fp).mergeSort timeLe).length),
      dynPhase excl rows fp (((studyMembers excl rows fp).mergeSort timeLe).get ⟨j, hj⟩) =
        if j = 0 then "PRE" else "POST_" ++ toString j) ∧
    (∀ hne : (studyMembers excl rows fp).mergeSort timeLe ≠ [],
      (((studyMembers excl rows fp).mergeSort timeLe).head hne).2.seriesTime.isSome = true ∧
      ∀ p ∈ studyMembers excl rows fp,
        timeLe (((studyMembers excl rows fp).mergeSort timeLe).head hne) p = true) := by
  have hfp : fp ∈ processedFps excl rows := processedFps_mem excl rows fp hc ht
  have hsorted : ((studyMembers excl rows fp).mergeSort timeLe).Pairwise
      (fun a b => timeLe a b = true) :=
    List.sorted_mergeSort timeLe_trans timeLe_total (studyMembers excl rows fp)
  have hperm : ((studyMembers excl rows fp).mergeSort timeLe).Perm (studyMembers excl rows fp) :=
    List.mergeSort_perm (studyMembers excl rows fp) timeLe
  have hnods : ((studyMembers excl rows fp).mergeSort timeLe).Nodup :=
    hperm.symm.nodup (studyMembers_nodup excl rows fp)
  refine ⟨hfp, ?_, ?_, ?_, hsorted, hperm, ?_, ?_⟩
  · intro p hp
    rw [analyzeStudyDyn, List.get?_map, List.get?_enum, List.mem_enum_iff_get?.1 hp]
    rfl
  · intro p hp
    constructor
    · intro heq
      rw [dynAssign_eq] at heq
      by_cases hcond : (dynEligible excl p.2 &&
          (processedFps excl rows).contains (dynFingerprint p.2)) = true
      · rw [if_pos hcond] at heq
        simp only [Option.some.injEq] at heq
        rw [Bool.and_eq_true] at hcond
        obtain ⟨helig, hcont⟩ := hcond
        have hproc : dynFingerprint p.2 ∈ processedFps excl rows := by
          simpa using hcont
        have hfpe : dynFingerprint p.2 = fp := by
          by_contra hne
          exact dynGroupId_inj hproc hfp hne heq
        exact mem_studyMembers.2 ⟨hp, helig, hfpe⟩
      · rw [if_neg hcond] at heq
        cases heq
    · intro hmem
      obtain ⟨_, helig, hfpe⟩ := mem_studyMembers.1 hmem
      rw [dynAssign_eq, hfpe]
      have hcond : (dynEligible excl p.2 && (processedFps excl rows).contains fp) = true := by
        rw [helig]
        simpa using hfp
      rw [if_pos hcond]
  · intro fp2 h2 hne
    exact dynGroupId_inj h2 hfp hne
  · intro j hj
    rw [dynPhase]
    rw [nodup_indexOf_get hnods ⟨j, hj⟩]
  · intro hne
    obtain ⟨a, t, hst⟩ : ∃ a t, (studyMembers excl rows fp).mergeSort timeLe = a :: t := by
      cases hx : (studyMembers excl rows fp).mergeSort timeLe with
      | nil => exact absurd hx hne
      | cons a t => exact ⟨a, t, rfl⟩
    have hhead : ((studyMembers excl rows fp).mergeSort timeLe).head hne = a := by
      have h1 : ((studyMembers excl rows fp).mergeSort timeLe).head? = some a := by
        rw [hst]
        rfl
      rw [List.head?_eq_head hne] at h1
      exact Option.some.inj h1
    have hmin0 : ∀ b ∈ t, timeLe a b = true := by
      rw [hst, List.pairwise_cons] at hsorted
      exact hsorted.1
    have hminAll : ∀ p ∈ studyMembers excl rows fp, timeLe a p = true := by
      intro p hp
      have hpm : p ∈ a :: t := by
        rw [← hst]
        exact hperm.mem_iff.2 hp
      rcases List.mem_cons.1 hpm with hpa | hpt
      · rw [hpa]
        exact timeLe_refl a
      · exact hmin0 p hpt
    have hsome : a.2.seriesTime.isSome = true := by
      by_contra hno
      obtain ⟨q, hq, hqs⟩ := ht
      have hle := hminAll q hq
      have hna : a.2.seriesTime = none := by
        cases hx : a.2.seriesTime with
        | none => rfl
        | some v =>
          rw [hx] at hno
          exact absurd rfl hno
      obtain ⟨w, hw⟩ := Option.isSome_iff_exists.1 hqs
      have hfalse : timeLe a q = false := by
        simp [timeLe, hna, hw]
      rw [hfalse] at hle
      exact Bool.false_ne_true hle
    rw [hhead]
    exact ⟨hsome, hminAll⟩

theorem c5_dynamic_grouping_witness :
    1 < (studyMembers []
      [({ sequenceClass := "T1GS", seriesTime := some 90000 } : DynRow),
       ({ sequenceClass := "T1GS", seriesTime := some 90200 } : DynRow),
       ({ sequenceClass := "T1GS", seriesTime := some 90400 } : DynRow),
       ({ sequenceClass := "T2", seriesTime := some 91000 } : DynRow)]
      (dynFingerprint ({ sequenceClass := "T1GS", seriesTime := some 90000 } : DynRow))).length ∧
    (∃ p ∈ studyMembers []
      [({ sequenceClass := "T1GS", seriesTime := some 90000 } : DynRow),
       ({ sequenceClass := "T1GS", seriesTime := some 90200 } : DynRow),
       ({ sequenceClass := "T1GS", seriesTime := some 90400 } : DynRow),
       ({ sequenceClass := "T2", seriesTime := some 91000 } : DynRow)]
      (dynFingerprint ({ sequenceClass := "T1GS", seriesTime := some 90000 } : DynRow)),
      p.2.seriesTime.isSome = true) ∧
    dynFingerprint ({ sequenceClass := "T1GS", seriesTime := some 90000 } : DynRow) ∈
      processedFps []
      [({ sequenceClass := "T1GS", seriesTime := some 90000 } : DynRow),
       ({ sequenceClass := "T1GS", seriesTime := some 90200 } : DynRow),
       ({ sequenceClass := "T1GS", seriesTime := some 90400 } : DynRow),
       ({ sequenceClass := "T2", seriesTime := some 91000 } : DynRow)] :=
  ⟨by decide, by decide,
    (c5_dynamic_grouping [] 1
      [({ sequenceClass := "T1GS", seriesTime := some 90000 } : DynRow),
       ({ sequenceClass := "T1GS", seriesTime := some 90200 } : DynRow),
       ({ sequenceClass := "T1GS", seriesTime := some 90400 } : DynRow),
       ({ sequenceClass := "T2", seriesTime := some 91000 } : DynRow)]
      (dynFingerprint ({ sequenceClass := "T1GS", seriesTime := some 90000 } : DynRow))
      (by decide) (by decide)).1⟩
